import Mathlib

/-! Character-device backend interface and trace buffer.

A shallow embedding of

* `include/chardev/char.h`: the telnet wire constants, the event and feature
  enumerations, the chardev type names, the socket chardev state, and
* `qemu-traces.c`: the history-map lookup and the trace entry buffer.

Bytes, machine integers and file descriptors are natural numbers or integers;
`target_ulong` arithmetic is reduced modulo `2 ^ w` where the source can wrap.
-/

namespace QemuChar

/-! ## Telnet wire constants (`char.h`, lines 15-21) -/

def IAC_EOR : Nat := 239
def IAC_SE : Nat := 240
def IAC_NOP : Nat := 241
def IAC_BREAK : Nat := 243
def IAC_IP : Nat := 244
def IAC_SB : Nat := 250
def IAC : Nat := 255

/-- The seven telnet constants of the header, in the order the header defines them. -/
def iacConstants : List Nat :=
  [IAC_EOR, IAC_SE, IAC_NOP, IAC_BREAK, IAC_IP, IAC_SB, IAC]

/-! ## `QEMUChrEvent` (`char.h`, lines 29-44) -/

inductive QEMUChrEvent where
  | CHR_EVENT_BREAK
  | CHR_EVENT_OPENED
  | CHR_EVENT_MUX_IN
  | CHR_EVENT_MUX_OUT
  | CHR_EVENT_CLOSED
  deriving DecidableEq, Repr

namespace QEMUChrEvent

/-- The integer a C enumerator stands for: enumerators without an initialiser
count up from zero in declaration order. -/
def toInt : QEMUChrEvent → Int
  | CHR_EVENT_BREAK => 0
  | CHR_EVENT_OPENED => 1
  | CHR_EVENT_MUX_IN => 2
  | CHR_EVENT_MUX_OUT => 3
  | CHR_EVENT_CLOSED => 4

/-- The enumerator, if any, that an `int event` argument stands for. -/
def ofInt (n : Int) : Option QEMUChrEvent :=
  if n = 0 then some CHR_EVENT_BREAK
  else if n = 1 then some CHR_EVENT_OPENED
  else if n = 2 then some CHR_EVENT_MUX_IN
  else if n = 3 then some CHR_EVENT_MUX_OUT
  else if n = 4 then some CHR_EVENT_CLOSED
  else none

/-- The enumerators in declaration order. -/
def all : List QEMUChrEvent :=
  [CHR_EVENT_BREAK, CHR_EVENT_OPENED, CHR_EVENT_MUX_IN, CHR_EVENT_MUX_OUT, CHR_EVENT_CLOSED]

end QEMUChrEvent

/-! ## `ChardevFeature` (`char.h`, lines 48-64) -/

inductive ChardevFeature where
  | QEMU_CHAR_FEATURE_RECONNECTABLE
  | QEMU_CHAR_FEATURE_FD_PASS
  | QEMU_CHAR_FEATURE_REPLAY
  | QEMU_CHAR_FEATURE_GCONTEXT
  deriving DecidableEq, Repr

namespace ChardevFeature

/-- The bit index of a feature flag: its position in the enumeration. -/
def toNat : ChardevFeature → Nat
  | QEMU_CHAR_FEATURE_RECONNECTABLE => 0
  | QEMU_CHAR_FEATURE_FD_PASS => 1
  | QEMU_CHAR_FEATURE_REPLAY => 2
  | QEMU_CHAR_FEATURE_GCONTEXT => 3

/-- The feature flags in declaration order. -/
def all : List ChardevFeature :=
  [QEMU_CHAR_FEATURE_RECONNECTABLE, QEMU_CHAR_FEATURE_FD_PASS,
   QEMU_CHAR_FEATURE_REPLAY, QEMU_CHAR_FEATURE_GCONTEXT]

end ChardevFeature

/-- `QEMU_CHAR_FEATURE_LAST`, the enumerator that closes `ChardevFeature`: it
follows four enumerators, so it stands for 4. -/
def QEMU_CHAR_FEATURE_LAST : Nat := 4

/-- Number of bits of `Chardev.features`:
`DECLARE_BITMAP(features, QEMU_CHAR_FEATURE_LAST)`. -/
def Chardev.features_nbits : Nat := QEMU_CHAR_FEATURE_LAST

/-! ## Chardev type names (`char.h`, lines 282-301) -/

def TYPE_CHARDEV : String := "chardev"
def TYPE_CHARDEV_NULL : String := "chardev-null"
def TYPE_CHARDEV_MUX : String := "chardev-mux"
def TYPE_CHARDEV_RINGBUF : String := "chardev-ringbuf"
def TYPE_CHARDEV_PTY : String := "chardev-pty"
def TYPE_CHARDEV_CONSOLE : String := "chardev-console"
def TYPE_CHARDEV_STDIO : String := "chardev-stdio"
def TYPE_CHARDEV_PIPE : String := "chardev-pipe"
def TYPE_CHARDEV_MEMORY : String := "chardev-memory"
def TYPE_CHARDEV_PARALLEL : String := "chardev-parallel"
def TYPE_CHARDEV_FILE : String := "chardev-file"
def TYPE_CHARDEV_SERIAL : String := "chardev-serial"
def TYPE_CHARDEV_SOCKET : String := "chardev-socket"
def TYPE_CHARDEV_UDP : String := "chardev-udp"

/-- Every `TYPE_CHARDEV_*` name of the header, in the order of definition
(the abstract base `TYPE_CHARDEV` is not among them). -/
def chardevVariantTypes : List String :=
  [TYPE_CHARDEV_NULL, TYPE_CHARDEV_MUX, TYPE_CHARDEV_RINGBUF, TYPE_CHARDEV_PTY,
   TYPE_CHARDEV_CONSOLE, TYPE_CHARDEV_STDIO, TYPE_CHARDEV_PIPE, TYPE_CHARDEV_MEMORY,
   TYPE_CHARDEV_PARALLEL, TYPE_CHARDEV_FILE, TYPE_CHARDEV_SERIAL, TYPE_CHARDEV_SOCKET,
   TYPE_CHARDEV_UDP]

/-- The transport variants as the specification lists them: null, ring-buffer,
pty, console, stdio, pipe, memory, parallel, file, serial, socket, udp. -/
def specVariantTypes : List String :=
  [TYPE_CHARDEV_NULL, TYPE_CHARDEV_RINGBUF, TYPE_CHARDEV_PTY, TYPE_CHARDEV_CONSOLE,
   TYPE_CHARDEV_STDIO, TYPE_CHARDEV_PIPE, TYPE_CHARDEV_MEMORY, TYPE_CHARDEV_PARALLEL,
   TYPE_CHARDEV_FILE, TYPE_CHARDEV_SERIAL, TYPE_CHARDEV_SOCKET, TYPE_CHARDEV_UDP]

/-! ## Writing to the transport

`char.h` declares `qemu_chr_write` and the transport operation
`ChardevClass.chr_write`; the body of `qemu_chr_write` is in `chardev/char.c`. -/

/-- What one call of the transport operation `chr_write` reports: it took `n`
bytes (possibly none), it would block, or it failed for good. -/
inductive ChrWriteResult where
  | sent (n : Nat)
  | wouldBlock
  | fatal (err : Nat)
  deriving DecidableEq, Repr

/-- What `qemu_chr_write` returns: the count of bytes written, or an error (a
negative `int` in C). -/
inductive ChrWriteReturn where
  | count (n : Nat)
  | error (err : Nat)
  deriving DecidableEq, Repr

/-- The transport operation `int (*chr_write)(Chardev *s, const uint8_t *buf, int len)`
on a transport state `σ`; `len` is the length of the list. -/
abbrev ChrWrite (σ : Type) := σ → List Nat → ChrWriteResult × σ

/-- Modelled from the spec: the body of `qemu_chr_write` with `write_all = true`
is missing (only its declaration is in `char.h`). "`full=true` retries until all
bytes are sent or a fatal transport error occurs": while bytes remain the
transport is called on the rest; a fatal error ends the write with that error,
anything else is followed by another attempt on what is left. `fuel` bounds the
number of transport calls, `none` meaning the bound was reached. -/
def qemu_chr_write_full {σ : Type} (chr_write : ChrWrite σ) :
    Nat → σ → List Nat → Nat → Option (ChrWriteReturn × σ)
  | 0, _, _, _ => none
  | fuel + 1, s, rest, offset =>
    if rest = [] then some (.count offset, s)
    else
      match chr_write s rest with
      | (.fatal err, s1) => some (.error err, s1)
      | (.wouldBlock, s1) => qemu_chr_write_full chr_write fuel s1 rest offset
      | (.sent n, s1) =>
        qemu_chr_write_full chr_write fuel s1 (rest.drop n) (offset + min n rest.length)

/-- Modelled from the spec: the body of `qemu_chr_write` with `write_all = false`
is missing. "`full=false` performs a best-effort partial write and returns the
count sent (may be 0 without being an error, e.g., on a would-block
condition)": one transport call. -/
def qemu_chr_write_once {σ : Type} (chr_write : ChrWrite σ) (s : σ) (buf : List Nat) :
    ChrWriteReturn × σ :=
  match chr_write s buf with
  | (.fatal err, s1) => (.error err, s1)
  | (.wouldBlock, s1) => (.count 0, s1)
  | (.sent n, s1) => (.count (min n buf.length), s1)

/-- Modelled from the spec: `qemu_chr_write(s, buf, len, write_all)`, whose body is
missing; `len` is the length of `buf`. The result is the count of bytes sent or
the error, with the transport state after the write. -/
def qemu_chr_write {σ : Type} (chr_write : ChrWrite σ) (fuel : Nat) (s : σ)
    (buf : List Nat) (write_all : Bool) : Option (ChrWriteReturn × σ) :=
  if write_all then qemu_chr_write_full chr_write fuel s buf 0
  else some (qemu_chr_write_once chr_write s buf)

/-- The macro `qemu_chr_write_all(s, buf, len)`: `qemu_chr_write(s, buf, len, true)`. -/
def qemu_chr_write_all {σ : Type} (chr_write : ChrWrite σ) (fuel : Nat) (s : σ)
    (buf : List Nat) : Option (ChrWriteReturn × σ) :=
  qemu_chr_write chr_write fuel s buf true

/-- A call of the transport that moved no byte and did not fail. -/
def ChrWriteResult.stalled : ChrWriteResult → Bool
  | .sent 0 => true
  | .wouldBlock => true
  | _ => false

/-- A transport that cannot stall for ever: each stalled call on a non-empty
buffer lowers `budget`. -/
def EventuallyWrites {σ : Type} (chr_write : ChrWrite σ) (budget : σ → Nat) : Prop :=
  ∀ s rest, rest ≠ [] → (chr_write s rest).1.stalled = true →
    budget (chr_write s rest).2 < budget s

/-- A transport whose state counts the calls that will still block; once the
count is used up it takes two bytes per call. -/
def blockingTransport : ChrWrite Nat := fun s _ =>
  if s = 0 then (.sent 2, 0) else (.wouldBlock, s - 1)

/-- The transport `chr_write` with a record of what it took: the state carries,
next to the state of the transport, the bytes the transport accepted so far, in
order. A call that reports `sent n` accepted the first `n` bytes of the buffer
it was given. -/
def recordingTransport {σ : Type} (chr_write : ChrWrite σ) : ChrWrite (σ × List Nat) :=
  fun s bytes =>
    match chr_write s.1 bytes with
    | (.sent n, s1) => (.sent n, (s1, s.2 ++ bytes.take n))
    | (.wouldBlock, s1) => (.wouldBlock, (s1, s.2))
    | (.fatal err, s1) => (.fatal err, (s1, s.2))

/-! ## Telnet codec

The codec state lives in `SocketChardev.do_telnetopt`; the decoder itself is in
`chardev/char-socket.c`. -/

/-- Modelled from the spec: where the decoder stands between two bytes (the field
`do_telnetopt` holds it; its encoding is not in the header): in payload, after
an IAC, or inside a subnegotiation. -/
inductive TelnetState where
  | data
  | iac
  | sub
  deriving DecidableEq, Repr

/-- Modelled from the spec: one byte through the decoder, the decoder being
missing. "a literal 0xFF (IAC) followed by another 0xFF is an escaped literal
byte value 255; IAC followed by a 1-byte command (other than
subnegotiation-begin) consumes exactly two bytes and is discarded; IAC followed
by subnegotiation-begin consumes bytes until a subnegotiation-end marker is
found, discarding the whole span; any other byte is payload". The result is the
next state and the payload byte delivered, if any. -/
def telnet_decode_byte (st : TelnetState) (b : Nat) : TelnetState × Option Nat :=
  match st with
  | .data => if b = IAC then (.iac, none) else (.data, some b)
  | .iac =>
    if b = IAC then (.data, some IAC)
    else if b = IAC_SB then (.sub, none)
    else (.data, none)
  | .sub => if b = IAC_SE then (.data, none) else (.sub, none)

/-- Modelled from the spec: one read through the telnet decoder. The state is
carried from byte to byte and out of the read, so "a truncated command sequence
at the end of a read" is "held and completed on the next read". -/
def telnet_decode (st : TelnetState) : List Nat → List Nat × TelnetState
  | [] => ([], st)
  | b :: bs =>
    let r := telnet_decode_byte st b
    let rest := telnet_decode r.1 bs
    (match r.2 with
     | some p => p :: rest.1
     | none => rest.1, rest.2)

/-- Modelled from the spec: the read path of a socket chardev through the codec.
"tn3270 mode disables escaping entirely — bytes pass through unmodified". -/
def tcp_chr_decode (is_tn3270 : Bool) (st : TelnetState) (bytes : List Nat) :
    List Nat × TelnetState :=
  if is_tn3270 then (bytes, st) else telnet_decode st bytes

/-- Literal escaping of a payload: every 0xFF (IAC) byte is doubled. -/
def iac_escape : List Nat → List Nat
  | [] => []
  | b :: bs => if b = IAC then IAC :: IAC :: iac_escape bs else b :: iac_escape bs

/-! ## Ancillary file descriptors

`SocketChardev` keeps the descriptors that came with a read in `read_msgfds`
(`read_msgfds_num` of them) and those staged for the next write in
`write_msgfds`; the operations `get_msgfds` and `set_msgfds` of `ChardevClass`
are implemented in `chardev/char-socket.c`. -/

/-- The fields of `SocketChardev` (`char.h`, lines 93-125) that the descriptor
channel uses. An array with its count is a list: `read_msgfds_num` is the length
of `read_msgfds`. `features` is the bitmap of the parent `Chardev`. -/
structure SocketChardev where
  features : Nat
  read_msgfds : List Int
  write_msgfds : List Int
  deriving DecidableEq, Repr

/-- Modelled from the spec: `qemu_chr_has_feature`, declared in `char.h` without a
body: "`query_feature(flag) -> bool`" reads the bit of the flag. -/
def qemu_chr_has_feature (features : Nat) (feature : ChardevFeature) : Bool :=
  features.testBit feature.toNat

/-- Modelled from the spec: the arrival of descriptors with a read, which is in the
missing `chardev/char-socket.c`. The buffers are "populated only when FD_PASS is
a supported feature"; "descriptors arriving with a read are appended"; on
overflow the channel must "reject the newest descriptors rather than growing
unbounded". The capacity `max_fds` is not in the header and is a parameter. -/
def tcp_chr_recv_msgfds (max_fds : Nat) (s : SocketChardev) (fds : List Int) : SocketChardev :=
  if qemu_chr_has_feature s.features .QEMU_CHAR_FEATURE_FD_PASS then
    { s with read_msgfds := s.read_msgfds ++ fds.take (max_fds - s.read_msgfds.length) }
  else s

/-- Modelled from the spec: the socket implementation of
`int (*get_msgfds)(Chardev *s, int *fds, int num)`, which is in the missing
`chardev/char-socket.c`. "a drain call returns up to the requested count and
removes them from the buffer, preserving arrival order; requesting more than
available returns only what exists without error". The result is the returned
`int` (a count; an error would be negative), the descriptors written to `fds`,
and the device afterwards. -/
def get_msgfds (s : SocketChardev) (num : Nat) : Int × List Int × SocketChardev :=
  let to_copy := min num s.read_msgfds.length
  (to_copy, s.read_msgfds.take to_copy, { s with read_msgfds := s.read_msgfds.drop to_copy })

/-! ## Telnet greeting (`char.h`, lines 82-85) -/

/-- Size of the array `char buf[21]` of `TCPChardevTelnetInit`. -/
def TELNET_INIT_BUF_SIZE : Nat := 21

/-- The struct `TCPChardevTelnetInit`: `char buf[21]; size_t buflen;`. -/
structure TCPChardevTelnetInit where
  buf : List Nat
  buflen : Nat
  deriving DecidableEq, Repr

/-- Modelled from the spec: how a greeting is put into a `TCPChardevTelnetInit`;
the code that fills the struct is in the missing `chardev/char-socket.c`. The
greeting is "a short, pre-built sequence of IAC option-negotiation commands"
whose bytes the spec does not list, so it is a parameter; its "payload [is]
capped at 21 bytes as a fixed buffer": the buffer keeps its 21 bytes, of which
the first `buflen` are the greeting. -/
def tcp_chr_telnet_init (greeting : List Nat) : TCPChardevTelnetInit :=
  let g := greeting.take TELNET_INIT_BUF_SIZE
  { buf := g ++ List.replicate (TELNET_INIT_BUF_SIZE - g.length) 0, buflen := g.length }

/-- The greeting a socket device holds (`telnet_init`, a pointer that may be
null) with "its current send offset". -/
structure TelnetGreeting where
  telnet_init : Option TCPChardevTelnetInit
  offset : Nat
  deriving DecidableEq, Repr

/-- What happens to the greeting of a socket device. -/
inductive GreetingEvent where
  | connected (greeting : List Nat)
  | written (n : Nat)
  | disconnected
  deriving DecidableEq, Repr

/-- Modelled from the spec: the life of the greeting, the code being in the missing
`chardev/char-socket.c`. On entering CONNECTED the device "queues a fixed
greeting" and "reset[s] the telnet greeting offset"; the greeting is "tracked by
a send offset so partial writes resume correctly", so a write of `n` bytes moves
the offset on, up to `buflen`; a disconnect releases the greeting with the
channel. -/
def greeting_step (g : TelnetGreeting) : GreetingEvent → TelnetGreeting
  | .connected greeting => { telnet_init := some (tcp_chr_telnet_init greeting), offset := 0 }
  | .written n =>
    match g.telnet_init with
    | some init => { g with offset := min (g.offset + n) init.buflen }
    | none => g
  | .disconnected => { telnet_init := none, offset := 0 }

/-- A socket device before its first connection: no greeting. -/
def greeting_start : TelnetGreeting := { telnet_init := none, offset := 0 }

/-- The greeting after a sequence of events. -/
def greeting_run (events : List GreetingEvent) : TelnetGreeting :=
  events.foldl greeting_step greeting_start

/-- The greeting a device holds fits its buffer and the offset is inside it. -/
def GreetingOk (g : TelnetGreeting) : Prop :=
  ∀ init, g.telnet_init = some init →
    init.buflen ≤ TELNET_INIT_BUF_SIZE ∧ init.buf.length = TELNET_INIT_BUF_SIZE ∧
    g.offset ≤ init.buflen

end QemuChar

namespace QemuTraces

/-! ## `qemu-traces.c` -/

/-- `MAX_TRACE_ENTRIES`, the number of slots of `trace_entries`. -/
def MAX_TRACE_ENTRIES : Nat := 1024

/-- The fields of `struct trace_entry` (declared in the missing `qemu-traces.h`)
that `qemu-traces.c` writes. -/
structure trace_entry where
  pc : Nat
  size : Nat
  op : Nat
  deriving DecidableEq, Repr

/-- The constants of the missing `qemu-traces.h` that the code uses, as
parameters. -/
structure TraceConsts where
  TRACE_OP_HIST_SET : Nat
  TRACE_OP_HIST_CACHE : Nat
  TRACE_OP_SPECIAL : Nat
  TRACE_SPECIAL_LOADADDR : Nat
  deriving DecidableEq, Repr

/-- The fields of `TranslationBlock` (declared outside `qemu-traces.c`) that
`tracefile_history_for_tb_search` reads and writes. -/
structure TranslationBlock where
  pc : Nat
  size : Nat
  tflags : Nat
  deriving DecidableEq, Repr

/-- The file-scope variables of `qemu-traces.c`. `tracefile` is `none` while the
pointer is null (it is null until `trace_init` opens the file) and otherwise the
sequence of entries written to the trace file so far; `trace_current` is the
index of the slot the pointer of that name points to; the array
`histmap_entries` with its count `nbr_histmap_entries` is a list. -/
structure TraceState where
  tracefile : Option (List trace_entry)
  trace_entries : List trace_entry
  trace_current : Nat
  tracefile_enabled : Int
  tracefile_nobuf : Int
  tracefile_history : Int
  histmap_entries : List Nat
  histmap_loadaddr : Nat
  deriving DecidableEq, Repr

/-- The count `nbr_histmap_entries` of the entries of `histmap_entries`. -/
def TraceState.nbr_histmap_entries (st : TraceState) : Int :=
  st.histmap_entries.length

/-- The `while (low <= high)` loop of `tracefile_history_for_tb_search`, on
`target_ulong` of `w` bits: `true` when the loop reaches
`tb->tflags |= TRACE_OP_HIST_SET; return;`, `false` when it runs to its end.
`low`, `high` and `mid` are C `int`s (`Int.tdiv` is the division of C). -/
def hist_search_loop (w : Nat) (histmap_loadaddr : Nat) (histmap_entries : List Nat)
    (tb_pc tb_size : Nat) (low high : Int) : Bool :=
  if low ≤ high then
    let mid := low + (high - low).tdiv 2
    let pc := (histmap_loadaddr + histmap_entries.getD mid.toNat 0) % 2 ^ w
    if pc ≥ tb_pc ∧ pc < (tb_pc + tb_size) % 2 ^ w then true
    else if tb_pc < pc then
      hist_search_loop w histmap_loadaddr histmap_entries tb_pc tb_size low (mid - 1)
    else
      hist_search_loop w histmap_loadaddr histmap_entries tb_pc tb_size (mid + 1) high
  else false
termination_by (high + 1 - low).toNat
decreasing_by
  all_goals simp_wf
  all_goals
    have h2 : (high - low).tdiv 2 = (high - low) / 2 :=
      Int.tdiv_eq_ediv (by omega) (by omega)
    omega

/-- The function `tracefile_history_for_tb_search`, on `target_ulong` of `w` bits:
the translation block after the call. -/
def tracefile_history_for_tb_search (w : Nat) (c : TraceConsts) (st : TraceState)
    (tb : TranslationBlock) : TranslationBlock :=
  let tb1 := { tb with tflags := tb.tflags ||| c.TRACE_OP_HIST_CACHE }
  if st.tracefile_history ≠ 0 then
    { tb1 with tflags := tb1.tflags ||| c.TRACE_OP_HIST_SET }
  else if st.nbr_histmap_entries ≠ 0 then
    if hist_search_loop w st.histmap_loadaddr st.histmap_entries tb1.pc tb1.size
        0 (st.nbr_histmap_entries - 1) then
      { tb1 with tflags := tb1.tflags ||| c.TRACE_OP_HIST_SET }
    else tb1
  else tb1

/-- The function `trace_flush`: the entries before `trace_current` go to the
trace file and `trace_current` is back at the first slot. The result is `none`
when the call does not return. With `tracefile` null the call of `fwrite` has
no defined behaviour: `fwrite_null n` says whether `fwrite` returns when it is
given `n` entries and a null stream (a C library may return at once for an
empty request; a crash is the rule otherwise), and it is a parameter. -/
def trace_flush (fwrite_null : Nat → Bool) (st : TraceState) : Option TraceState :=
  match st.tracefile with
  | some written =>
    some { st with
      tracefile := some (written ++ st.trace_entries.take st.trace_current)
      trace_current := 0 }
  | none =>
    if fwrite_null st.trace_current then some { st with trace_current := 0 } else none

/-- The function `trace_push_entry`; `none` when the call does not return. -/
def trace_push_entry (fwrite_null : Nat → Bool) (st : TraceState) : Option TraceState :=
  let st1 := { st with trace_current := st.trace_current + 1 }
  if st1.trace_current = MAX_TRACE_ENTRIES ∨ st1.tracefile_nobuf ≠ 0 then
    trace_flush fwrite_null st1
  else some st1

/-- The function `trace_special`; `none` when the call does not return. -/
def trace_special (fwrite_null : Nat → Bool) (c : TraceConsts) (subop data : Nat)
    (st : TraceState) : Option TraceState :=
  if st.tracefile_enabled = 0 then some st
  else
    let st1 := { st with
      trace_entries := st.trace_entries.set st.trace_current
        { pc := data, size := subop, op := c.TRACE_OP_SPECIAL } }
    let st2 := if subop = c.TRACE_SPECIAL_LOADADDR then { st1 with histmap_loadaddr := data }
      else st1
    let st3 := { st2 with trace_current := st2.trace_current + 1 }
    if st3.trace_current = MAX_TRACE_ENTRIES ∨ st3.tracefile_nobuf ≠ 0 then
      trace_flush fwrite_null st3
    else some st3

/-- A call of one of the three functions that move `trace_current`. -/
inductive TraceCall where
  | push_entry
  | special (subop data : Nat)
  | flush
  deriving DecidableEq, Repr

/-- The state after one call, `none` when the call does not return. -/
def TraceCall.run (fwrite_null : Nat → Bool) (c : TraceConsts) (st : TraceState) :
    TraceCall → Option TraceState
  | .push_entry => trace_push_entry fwrite_null st
  | .special subop data => trace_special fwrite_null c subop data st
  | .flush => trace_flush fwrite_null st

/-- The state after a sequence of calls, `none` when one of them does not
return. -/
def run_calls (fwrite_null : Nat → Bool) (c : TraceConsts) (st : TraceState) :
    List TraceCall → Option TraceState
  | [] => some st
  | call :: calls =>
    match call.run fwrite_null c st with
    | none => none
    | some st1 => run_calls fwrite_null c st1 calls

/-- The state the calls start from: `trace_entries` is a zeroed array of
`MAX_TRACE_ENTRIES` slots, `trace_current = trace_entries`, nothing is written;
the flags and the history map are what the options made them. `trace_init`
opens the trace file before it sets `tracefile_enabled`, so the file is open
when tracing is enabled and `tracefile` is null when it is not. -/
def trace_start (enabled nobuf history : Int) (histmap_entries : List Nat)
    (histmap_loadaddr : Nat) : TraceState :=
  { tracefile := if enabled = 0 then none else some []
    trace_entries := List.replicate MAX_TRACE_ENTRIES { pc := 0, size := 0, op := 0 }
    trace_current := 0
    tracefile_enabled := enabled
    tracefile_nobuf := nobuf
    tracefile_history := history
    histmap_entries := histmap_entries
    histmap_loadaddr := histmap_loadaddr }

/-- The buffer is well formed: `trace_current` points into `trace_entries`,
which has its `MAX_TRACE_ENTRIES` slots. -/
def TraceOk (st : TraceState) : Prop :=
  st.trace_current < MAX_TRACE_ENTRIES ∧ st.trace_entries.length = MAX_TRACE_ENTRIES

/-- Sample values for the constants, to evaluate the functions on concrete
inputs. -/
def traceConsts : TraceConsts :=
  { TRACE_OP_HIST_SET := 0x100, TRACE_OP_HIST_CACHE := 0x200,
    TRACE_OP_SPECIAL := 0x80, TRACE_SPECIAL_LOADADDR := 1 }

/-! ### The history-map file (`read_map_file`) -/

/-- The fields of `struct trace_header` (declared in the missing `qemu-traces.h`)
that `read_map_file` checks; `machine0` and `machine1` are `machine[0]` and
`machine[1]`. -/
structure trace_header where
  magic : List Nat
  version : Nat
  kind : Nat
  sizeof_target_pc : Nat
  big_endian : Nat
  machine0 : Nat
  machine1 : Nat
  _pad : Nat
  deriving DecidableEq, Repr

/-- What the missing headers and the build fix for `read_map_file`, as
parameters: the size and the layout of `struct trace_header` (`hdr_of_bytes`
gives the struct that `fread` fills from `sizeof_hdr` bytes), the constants the
header is compared with, `sizeof(target_ulong)`, the sizes of
`struct trace_entry32` and `struct trace_entry64` with the offsets of their
field `pc`, and whether `WORDS_BIGENDIAN` is defined. -/
structure MapFormat where
  sizeof_hdr : Nat
  hdr_of_bytes : List Nat → trace_header
  QEMU_TRACE_MAGIC : List Nat
  QEMU_TRACE_VERSION : Nat
  QEMU_TRACE_KIND_DECISION_MAP : Nat
  ELF_MACHINE : Nat
  sizeof_target_ulong : Nat
  sizeof_trace_entry32 : Nat
  offsetof_pc32 : Nat
  sizeof_trace_entry64 : Nat
  offsetof_pc64 : Nat
  WORDS_BIGENDIAN : Bool

/-- The number a sequence of bytes stands for, least significant byte first. -/
def le_value : List Nat → Nat
  | [] => 0
  | b :: bs => b + 256 * le_value bs

/-- The `n` bytes of `v`, least significant byte first. -/
def le_bytes : Nat → Nat → List Nat
  | 0, _ => []
  | n + 1, v => v % 256 :: le_bytes n (v / 256)

/-- The helper `bswap32`: the four bytes of the value in reverse order. -/
def bswap32 (v : Nat) : Nat := le_value (le_bytes 4 v).reverse

/-- The helper `bswap64`: the eight bytes of the value in reverse order. -/
def bswap64 (v : Nat) : Nat := le_value (le_bytes 8 v).reverse

/-- The variable `my_endian` of `read_map_file`: 1 with `WORDS_BIGENDIAN`, else 0. -/
def my_endian (cfg : MapFormat) : Nat := if cfg.WORDS_BIGENDIAN then 1 else 0

/-- The integer the host reads from the bytes of an integer field. -/
def host_value (cfg : MapFormat) (bytes : List Nat) : Nat :=
  if cfg.WORDS_BIGENDIAN then le_value bytes.reverse else le_value bytes

/-- The condition of the `bad header` test of `read_map_file`. -/
def hdr_bad (cfg : MapFormat) (hdr : trace_header) : Bool :=
  hdr.magic != cfg.QEMU_TRACE_MAGIC
    || hdr.version != cfg.QEMU_TRACE_VERSION
    || hdr.kind != cfg.QEMU_TRACE_KIND_DECISION_MAP
    || hdr.sizeof_target_pc != cfg.sizeof_target_ulong
    || (hdr.big_endian != 0 && hdr.big_endian != 1)
    || hdr.machine0 != cfg.ELF_MACHINE >>> 8
    || hdr.machine1 != cfg.ELF_MACHINE &&& 0xff
    || hdr._pad != 0

/-- The value of `ent.pc` after the byte swap, for an entry of the 32-bit loop
given by its bytes: the field as the host reads it, through `bswap32` when
`my_endian != hdr.big_endian`. -/
def ent_pc32 (cfg : MapFormat) (big_endian : Nat) (ent : List Nat) : Nat :=
  let pc := host_value cfg ((ent.drop cfg.offsetof_pc32).take 4)
  if my_endian cfg ≠ big_endian then bswap32 pc else pc

/-- The value of `ent.pc` after the byte swap, for an entry of the 64-bit loop. -/
def ent_pc64 (cfg : MapFormat) (big_endian : Nat) (ent : List Nat) : Nat :=
  let pc := host_value cfg ((ent.drop cfg.offsetof_pc64).take 8)
  if my_endian cfg ≠ big_endian then bswap64 pc else pc

/-- One of the two `for (i = 0; i < nbr_histmap_entries; i++)` loops of
`read_map_file`, which differ in the entry type only: `ent_sz` is the size of the
entry and `ent_pc` gives `ent.pc` after the swap. `data` is the file, `pos` the
file position, `entries` is `histmap_entries[0..i)` and the first argument is
`nbr_histmap_entries - i`. The result is the filled array, or `none` where the
function calls `exit(1)`. -/
def read_map_loop (ent_sz : Nat) (ent_pc : List Nat → Nat) (data : List Nat) :
    Nat → Nat → List Nat → Option (List Nat)
  | 0, _, entries => some entries
  | n + 1, pos, entries =>
    let ent := (data.drop pos).take ent_sz
    if ent.length ≠ ent_sz then none
    else if entries.length > 0 ∧ ent_pc ent < entries.getD (entries.length - 1) 0 then none
    else read_map_loop ent_sz ent_pc data n (pos + ent_sz) (entries ++ [ent_pc ent])

/-- The `strchr(filename, ',')` of `read_map_file`: the text before the first
comma and the text after it, `none` when there is no comma. -/
def split_comma : List Char → Option (List Char × List Char)
  | [] => none
  | ch :: rest =>
    if ch = ',' then some ([], rest)
    else
      match split_comma rest with
      | none => none
      | some (filename, tail) => some (ch :: filename, tail)

/-- The conversion of an `off_t` value to the 32-bit `int` it is assigned to: the
value modulo `2 ^ 32`, in the range from `-2 ^ 31` to `2 ^ 31 - 1`. -/
def int_of_off_t (x : Int) : Int := (x + 2147483648) % 4294967296 - 2147483648

/-- The function `read_map_file`. `files` gives the bytes of the file of a name,
`none` when `fopen` fails; `optarg` is `*poptarg`. The result is the state and
`*poptarg` after the call, or `none` where the function does not return
(`exit(1)`, or an abort in `g_malloc`). `nbr_histmap_entries` is an `int`: the
quotient `length / ent_sz` is converted to 32 bits. A negative count, converted
to `size_t` for `g_malloc`, asks for more than the address space and `g_malloc`
aborts; the allocation of a positive count succeeds. Reads and seeks of an open
file succeed as far as the file has bytes. -/
def read_map_file (cfg : MapFormat) (files : List Char → Option (List Nat))
    (st : TraceState) (optarg : List Char) : Option (TraceState × List Char) :=
  match split_comma optarg with
  | none => none
  | some (filename, tail) =>
    match files filename with
    | none => none
    | some data =>
      if data.length < cfg.sizeof_hdr then none
      else
        let hdr := cfg.hdr_of_bytes (data.take cfg.sizeof_hdr)
        if hdr_bad cfg hdr then none
        else
          let length := data.length - cfg.sizeof_hdr
          let ent_sz :=
            if cfg.sizeof_target_ulong = 4 then cfg.sizeof_trace_entry32
            else cfg.sizeof_trace_entry64
          if length % ent_sz ≠ 0 then none
          else
            let nbr : Int := int_of_off_t ((length / ent_sz : Nat) : Int)
            if nbr < 0 then none
            else
              let filled :=
                if cfg.sizeof_target_ulong = 4 then
                  read_map_loop cfg.sizeof_trace_entry32 (ent_pc32 cfg hdr.big_endian) data
                    nbr.toNat cfg.sizeof_hdr []
                else
                  read_map_loop cfg.sizeof_trace_entry64 (ent_pc64 cfg hdr.big_endian) data
                    nbr.toNat cfg.sizeof_hdr []
              match filled with
              | none => none
              | some entries => some ({ st with histmap_entries := entries }, tail)

/-- The header of the file `data`, as `fread` fills it. -/
def map_hdr (cfg : MapFormat) (data : List Nat) : trace_header :=
  cfg.hdr_of_bytes (data.take cfg.sizeof_hdr)

/-- The entry size `ent_sz` that `read_map_file` works with. -/
def map_ent_sz (cfg : MapFormat) : Nat :=
  if cfg.sizeof_target_ulong = 4 then cfg.sizeof_trace_entry32 else cfg.sizeof_trace_entry64

/-- The payload length of the file `data`: what follows the header. -/
def map_payload_length (cfg : MapFormat) (data : List Nat) : Nat :=
  data.length - cfg.sizeof_hdr

/-- The pc value of entry `i` of the file `data`: the field `pc` of the `i`-th
record of `ent_sz` bytes after the header, as the host reads it, byte-swapped
when the endianness of the file is not that of the host. -/
def map_entry_pc (cfg : MapFormat) (data : List Nat) (i : Nat) : Nat :=
  let ent := (data.drop (cfg.sizeof_hdr + i * map_ent_sz cfg)).take (map_ent_sz cfg)
  if cfg.sizeof_target_ulong = 4 then ent_pc32 cfg (map_hdr cfg data).big_endian ent
  else ent_pc64 cfg (map_hdr cfg data).big_endian ent

/-- The pc values of the entries of the file `data`, in file order. -/
def map_entries (cfg : MapFormat) (data : List Nat) : List Nat :=
  (List.range (map_payload_length cfg data / map_ent_sz cfg)).map (map_entry_pc cfg data)

/-- The value of `nbr_histmap_entries` that `read_map_file` computes for the file
`data`: the number of entries, converted to `int`. -/
def map_nbr (cfg : MapFormat) (data : List Nat) : Int :=
  int_of_off_t ((map_payload_length cfg data / map_ent_sz cfg : Nat) : Int)

/-- The pc value that entry `i` of the file `data` carries: the bytes of the field
`pc` of the `i`-th entry after the header (4 bytes for a 32-bit target, 8
otherwise), read in the byte order the header of the file declares, most
significant byte first when `big_endian` is 1 and least significant byte first
when it is 0. -/
def file_entry_pc (cfg : MapFormat) (data : List Nat) (i : Nat) : Nat :=
  let at_pc := cfg.sizeof_hdr + i * map_ent_sz cfg +
    (if cfg.sizeof_target_ulong = 4 then cfg.offsetof_pc32 else cfg.offsetof_pc64)
  let bytes := (data.drop at_pc).take (if cfg.sizeof_target_ulong = 4 then 4 else 8)
  if (map_hdr cfg data).big_endian = 1 then le_value bytes.reverse else le_value bytes

/-- The pc values that the entries of the file `data` carry, in file order. -/
def file_entries (cfg : MapFormat) (data : List Nat) : List Nat :=
  (List.range (map_payload_length cfg data / map_ent_sz cfg)).map (file_entry_pc cfg data)

/-- The field `pc` lies inside its entry: a layout that a C struct has. -/
def pc_in_entry (cfg : MapFormat) : Prop :=
  if cfg.sizeof_target_ulong = 4 then cfg.offsetof_pc32 + 4 ≤ cfg.sizeof_trace_entry32
  else cfg.offsetof_pc64 + 8 ≤ cfg.sizeof_trace_entry64

/-- The values the loop of `read_map_file` appends: `ent_pc` of the `n` records
of `ent_sz` bytes from the position `pos` on. -/
def loop_values (ent_sz : Nat) (ent_pc : List Nat → Nat) (data : List Nat) (n pos : Nat) :
    List Nat :=
  (List.range n).map (fun k => ent_pc ((data.drop (pos + k * ent_sz)).take ent_sz))

/-- A sample format for evaluation: a 20-byte header (12 bytes of magic, then
version, kind, pc size, endianness, two machine bytes, two bytes of padding),
entries of 8 and 16 bytes with `pc` first, a little-endian 32-bit target. -/
def sampleFormat : MapFormat :=
  { sizeof_hdr := 20
    hdr_of_bytes := fun bytes =>
      { magic := bytes.take 12
        version := bytes.getD 12 0
        kind := bytes.getD 13 0
        sizeof_target_pc := bytes.getD 14 0
        big_endian := bytes.getD 15 0
        machine0 := bytes.getD 16 0
        machine1 := bytes.getD 17 0
        _pad := bytes.getD 18 0 + 256 * bytes.getD 19 0 }
    QEMU_TRACE_MAGIC := [35, 81, 69, 77, 85, 45, 84, 114, 97, 99, 101, 115]
    QEMU_TRACE_VERSION := 1
    QEMU_TRACE_KIND_DECISION_MAP := 3
    ELF_MACHINE := 20
    sizeof_target_ulong := 4
    sizeof_trace_entry32 := 8
    offsetof_pc32 := 0
    sizeof_trace_entry64 := 16
    offsetof_pc64 := 0
    WORDS_BIGENDIAN := false }

/-- A header of the sample format, for a file of the given endianness. -/
def sampleHeader (big_endian : Nat) : List Nat :=
  [35, 81, 69, 77, 85, 45, 84, 114, 97, 99, 101, 115, 1, 3, 4, big_endian, 0, 20, 0, 0]

/-- A file system with the one file `map`. -/
def sampleFiles (data : List Nat) : List Char → Option (List Nat) := fun name =>
  if name = ['m', 'a', 'p'] then some data else none

/-- A sample map file: two little-endian entries with pc 0x10 and 0x120. -/
def sampleMapSorted : List Nat :=
  sampleHeader 0 ++ [0x10, 0, 0, 0, 4, 0, 1, 0] ++ [0x20, 1, 0, 0, 4, 0, 1, 0]

/-- A map file of `2 ^ 32` entries, all zero, in the sample format: a header and
`2 ^ 32 * 8` bytes. -/
def sampleMapHuge : List Nat :=
  sampleHeader 0 ++ List.replicate (4294967296 * 8) 0

/-- A sample map file whose second entry is smaller than the first. -/
def sampleMapUnsorted : List Nat :=
  sampleHeader 0 ++ [0x20, 1, 0, 0, 4, 0, 1, 0] ++ [0x10, 0, 0, 0, 4, 0, 1, 0]

end QemuTraces

namespace QemuChar

/-! ## Theorems on `char.h` -/

theorem qemu_chr_write_full_result {σ : Type} (chr_write : ChrWrite σ) :
    ∀ (fuel : Nat) (s : σ) (rest : List Nat) (offset : Nat) (r : ChrWriteReturn) (s1 : σ),
      qemu_chr_write_full chr_write fuel s rest offset = some (r, s1) →
      r = .count (offset + rest.length) ∨ ∃ err, r = .error err := by
  intro fuel
  induction fuel with
  | zero => intro s rest offset r s1 h; simp [qemu_chr_write_full] at h
  | succ fuel ih =>
    intro s rest offset r s1 h
    rw [qemu_chr_write_full] at h
    by_cases hrest : rest = []
    · simp only [hrest, if_true, Option.some.injEq, Prod.mk.injEq] at h
      left
      simp [hrest, ← h.1]
    · simp only [hrest, if_false] at h
      rcases hcw : chr_write s rest with ⟨res, s2⟩
      rw [hcw] at h
      cases res with
      | fatal err =>
        simp only [Option.some.injEq, Prod.mk.injEq] at h
        exact Or.inr ⟨err, h.1.symm⟩
      | wouldBlock => exact ih s2 rest offset r s1 h
      | sent n =>
        rcases ih s2 (rest.drop n) (offset + min n rest.length) r s1 h with h1 | h1
        · left
          rw [h1, List.length_drop]
          congr 1
          omega
        · exact Or.inr h1

theorem qemu_chr_write_full_returns {σ : Type} (chr_write : ChrWrite σ) (budget : σ → Nat)
    (hlive : EventuallyWrites chr_write budget) :
    ∀ (len : Nat) (rest : List Nat), rest.length = len →
    ∀ (b : Nat) (s : σ) (offset : Nat), budget s = b →
      ∃ fuel r s1, qemu_chr_write_full chr_write fuel s rest offset = some (r, s1) := by
  intro len
  induction len using Nat.strong_induction_on with
  | _ len ihlen =>
    intro rest hlen b
    induction b using Nat.strong_induction_on with
    | _ b ihb =>
      intro s offset hb
      by_cases hrest : rest = []
      · exact ⟨1, .count offset, s, by simp [qemu_chr_write_full, hrest]⟩
      · rcases hcw : chr_write s rest with ⟨res, s2⟩
        have hst := hlive s rest hrest
        rw [hcw] at hst
        cases res with
        | fatal err =>
          exact ⟨1, .error err, s2, by simp [qemu_chr_write_full, hrest, hcw]⟩
        | wouldBlock =>
          obtain ⟨fuel, r, s1, h⟩ := ihb (budget s2) (by
            have := hst rfl
            simpa [hb] using this) s2 offset rfl
          exact ⟨fuel + 1, r, s1, by simp [qemu_chr_write_full, hrest, hcw, h]⟩
        | sent n =>
          cases n with
          | zero =>
            obtain ⟨fuel, r, s1, h⟩ := ihb (budget s2) (by
              have := hst rfl
              simpa [hb] using this) s2 offset rfl
            exact ⟨fuel + 1, r, s1, by simp [qemu_chr_write_full, hrest, hcw, h]⟩
          | succ n =>
            have hlt : (rest.drop (n + 1)).length < len := by
              have : rest.length ≠ 0 := by simpa using hrest
              rw [List.length_drop]
              omega
            obtain ⟨fuel, r, s1, h⟩ := ihlen _ hlt (rest.drop (n + 1)) rfl
              (budget s2) s2 (offset + min (n + 1) rest.length) rfl
            exact ⟨fuel + 1, r, s1, by simp [qemu_chr_write_full, hrest, hcw, h]⟩

theorem blockingTransport_eventuallyWrites : EventuallyWrites blockingTransport id := by
  intro s rest _ h
  unfold blockingTransport at h ⊢
  by_cases hs : s = 0
  · simp [hs, ChrWriteResult.stalled] at h
  · simp only [hs, if_false, id]
    omega

theorem qemu_chr_write_full_recorded {σ : Type} (chr_write : ChrWrite σ) :
    ∀ (fuel : Nat) (s : σ) (log rest : List Nat) (offset : Nat) (r : ChrWriteReturn) (s1 : σ)
      (log1 : List Nat),
      qemu_chr_write_full (recordingTransport chr_write) fuel (s, log) rest offset =
        some (r, (s1, log1)) →
      (r = .count (offset + rest.length) ∧ log1 = log ++ rest) ∨
        (∃ err, r = .error err) ∧ ∃ unsent, log1 ++ unsent = log ++ rest := by
  intro fuel
  induction fuel with
  | zero => intro s log rest offset r s1 log1 h; simp [qemu_chr_write_full] at h
  | succ fuel ih =>
    intro s log rest offset r s1 log1 h
    rw [qemu_chr_write_full] at h
    by_cases hrest : rest = []
    · simp only [hrest, if_true, Option.some.injEq, Prod.mk.injEq] at h
      obtain ⟨h1, _, h3⟩ := h
      left
      simp [hrest, ← h1, ← h3]
    · simp only [hrest, if_false] at h
      rcases hcw : chr_write s rest with ⟨res, s2⟩
      cases res with
      | fatal err =>
        simp only [recordingTransport, hcw, Option.some.injEq, Prod.mk.injEq] at h
        obtain ⟨h1, _, h3⟩ := h
        exact Or.inr ⟨⟨err, h1.symm⟩, rest, by rw [← h3]⟩
      | wouldBlock =>
        simp only [recordingTransport, hcw] at h
        exact ih s2 log rest offset r s1 log1 h
      | sent n =>
        simp only [recordingTransport, hcw] at h
        rcases ih s2 (log ++ rest.take n) (rest.drop n) (offset + min n rest.length) r s1
          log1 h with h1 | h1
        · left
          refine ⟨?_, ?_⟩
          · rw [h1.1, List.length_drop]
            congr 1
            omega
          · rw [h1.2, List.append_assoc, List.take_append_drop]
        · right
          refine ⟨h1.1, ?_⟩
          obtain ⟨unsent, hu⟩ := h1.2
          exact ⟨unsent, by rw [hu, List.append_assoc, List.take_append_drop]⟩

theorem qemu_chr_write_full_recording {σ : Type} (chr_write : ChrWrite σ) :
    ∀ (fuel : Nat) (s : σ) (log rest : List Nat) (offset : Nat),
      (qemu_chr_write_full (recordingTransport chr_write) fuel (s, log) rest offset).map
        (fun x => (x.1, x.2.1)) = qemu_chr_write_full chr_write fuel s rest offset := by
  intro fuel
  induction fuel with
  | zero => intro s log rest offset; simp [qemu_chr_write_full]
  | succ fuel ih =>
    intro s log rest offset
    rw [qemu_chr_write_full, qemu_chr_write_full]
    by_cases hrest : rest = []
    · simp [hrest]
    · simp only [hrest, if_false]
      rcases hcw : chr_write s rest with ⟨res, s2⟩
      cases res with
      | fatal err => simp [recordingTransport, hcw]
      | wouldBlock => simp only [recordingTransport, hcw]; exact ih s2 log rest offset
      | sent n => simp only [recordingTransport, hcw]; exact ih s2 _ _ _

/-- C1. A write with `write_all = true` that returns, returns the whole length
`len` or an error, never a smaller count; when it returns `len` the bytes the
transport accepted during the write are, in order, exactly `buf` (every byte
transmitted), and when it returns an error they are a leading part of `buf`;
recording what the transport accepts does not change the write; and the write
does return, with enough fuel, on every transport that cannot stall for
ever. -/
theorem qemu_chr_write_all_or_error {σ : Type} (chr_write : ChrWrite σ) (s : σ)
    (buf : List Nat) :
    (∀ (fuel : Nat) (r : ChrWriteReturn) (s1 : σ),
      qemu_chr_write chr_write fuel s buf true = some (r, s1) →
        r = .count buf.length ∨ ∃ err, r = .error err) ∧
    (∀ budget : σ → Nat, EventuallyWrites chr_write budget →
      ∃ fuel r s1, qemu_chr_write_all chr_write fuel s buf = some (r, s1)) ∧
    (∀ (fuel : Nat) (r : ChrWriteReturn) (s1 : σ) (accepted : List Nat),
      qemu_chr_write (recordingTransport chr_write) fuel (s, []) buf true =
          some (r, (s1, accepted)) →
        (r = .count buf.length ∧ accepted = buf) ∨
          (∃ err, r = .error err) ∧ ∃ unsent, accepted ++ unsent = buf) ∧
    (∀ fuel : Nat,
      (qemu_chr_write (recordingTransport chr_write) fuel (s, []) buf true).map
        (fun x => (x.1, x.2.1)) = qemu_chr_write chr_write fuel s buf true) := by
  refine ⟨?_, ?_, ?_, ?_⟩
  · intro fuel r s1 h
    simp only [qemu_chr_write, if_true] at h
    simpa using qemu_chr_write_full_result chr_write fuel s buf 0 r s1 h
  · intro budget hlive
    obtain ⟨fuel, r, s1, h⟩ :=
      qemu_chr_write_full_returns chr_write budget hlive buf.length buf rfl (budget s) s 0 rfl
    exact ⟨fuel, r, s1, by simpa [qemu_chr_write_all, qemu_chr_write] using h⟩
  · intro fuel r s1 accepted h
    simp only [qemu_chr_write, if_true] at h
    simpa using qemu_chr_write_full_recorded chr_write fuel s [] buf 0 r s1 accepted h
  · intro fuel
    simp only [qemu_chr_write, if_true]
    exact qemu_chr_write_full_recording chr_write fuel s [] buf 0

theorem qemu_chr_write_all_or_error_witness :
    qemu_chr_write blockingTransport 6 3 [1, 2, 3] true = some (.count 3, 0) ∧
    EventuallyWrites blockingTransport id ∧
    (ChrWriteReturn.count 3 = .count [1, 2, 3].length ∨
      ∃ err, ChrWriteReturn.count 3 = .error err) ∧
    (∃ fuel r s1, qemu_chr_write_all blockingTransport fuel 3 [1, 2, 3] = some (r, s1)) ∧
    qemu_chr_write (recordingTransport blockingTransport) 6 (3, []) [1, 2, 3] true =
      some (.count 3, (0, [1, 2, 3])) ∧
    ((ChrWriteReturn.count 3 = .count [1, 2, 3].length ∧ [1, 2, 3] = [1, 2, 3]) ∨
      (∃ err, ChrWriteReturn.count 3 = .error err) ∧ ∃ unsent, [1, 2, 3] ++ unsent = [1, 2, 3]) :=
  ⟨by decide, blockingTransport_eventuallyWrites,
   (qemu_chr_write_all_or_error blockingTransport 3 [1, 2, 3]).1 6 (.count 3) 0 (by decide),
   (qemu_chr_write_all_or_error blockingTransport 3 [1, 2, 3]).2.1 id
     blockingTransport_eventuallyWrites,
   by decide,
   (qemu_chr_write_all_or_error blockingTransport 3 [1, 2, 3]).2.2.1 6 (.count 3) 0 [1, 2, 3]
     (by decide)⟩

theorem telnet_decode_append (a b : List Nat) :
    ∀ st : TelnetState, telnet_decode st (a ++ b) =
      ((telnet_decode st a).1 ++ (telnet_decode (telnet_decode st a).2 b).1,
       (telnet_decode (telnet_decode st a).2 b).2) := by
  induction a with
  | nil => intro st; simp [telnet_decode]
  | cons x a ih =>
    intro st
    simp only [List.cons_append, telnet_decode]
    cases (telnet_decode_byte st x).2 <;> simp [ih]

theorem telnet_decode_iac_escape (x : List Nat) :
    telnet_decode .data (iac_escape x) = (x, .data) := by
  induction x with
  | nil => simp [iac_escape, telnet_decode]
  | cons b bs ih =>
    by_cases hb : b = IAC
    · simp [iac_escape, telnet_decode, telnet_decode_byte, hb, ih]
    · simp [iac_escape, telnet_decode, telnet_decode_byte, hb, ih]

/-- C2. Decoding in telnet mode the payload `x` escaped by doubling every 0xFF
gives back `x` and leaves the decoder in payload state, also when the escaped
bytes arrive in two reads cut at any place `n`. Bytes are naturals; the
statement holds for all of them, so for every sequence of values below 256. -/
theorem telnet_decode_escape_roundtrip (x : List Nat) :
    tcp_chr_decode false .data (iac_escape x) = (x, .data) ∧
    ∀ n : Nat,
      (tcp_chr_decode false .data ((iac_escape x).take n)).1 ++
        (tcp_chr_decode false (tcp_chr_decode false .data ((iac_escape x).take n)).2
          ((iac_escape x).drop n)).1 = x ∧
      (tcp_chr_decode false (tcp_chr_decode false .data ((iac_escape x).take n)).2
          ((iac_escape x).drop n)).2 = .data := by
  have h := telnet_decode_iac_escape x
  refine ⟨by simpa [tcp_chr_decode] using h, ?_⟩
  intro n
  have h2 := telnet_decode_append ((iac_escape x).take n) ((iac_escape x).drop n) .data
  rw [List.take_append_drop, h] at h2
  simp only [tcp_chr_decode, Bool.false_eq_true, if_false]
  constructor
  · exact (congrArg Prod.fst h2).symm
  · exact (congrArg Prod.snd h2).symm

/-- C3. Draining `num` descriptors from an inbound buffer of `k` returns the
count `min num k`, which is no error, hands out the first `min num k`
descriptors in arrival order and leaves the others, in order, in the buffer;
a device with FD_PASS that received two descriptors into an empty buffer gives
exactly these two to a drain of 5 and is left with an empty buffer. -/
theorem get_msgfds_drains (s : SocketChardev) (num : Nat) :
    (get_msgfds s num).1 = ((min num s.read_msgfds.length : Nat) : Int) ∧
    0 ≤ (get_msgfds s num).1 ∧
    (get_msgfds s num).2.1 = s.read_msgfds.take (min num s.read_msgfds.length) ∧
    (get_msgfds s num).2.2.read_msgfds = s.read_msgfds.drop (min num s.read_msgfds.length) ∧
    (get_msgfds s num).2.1 ++ (get_msgfds s num).2.2.read_msgfds = s.read_msgfds ∧
    (s.read_msgfds.length < num →
      (get_msgfds s num).2.1 = s.read_msgfds ∧ (get_msgfds s num).2.2.read_msgfds = []) ∧
    (∀ (max_fds : Nat) (a b : Int),
      qemu_chr_has_feature s.features .QEMU_CHAR_FEATURE_FD_PASS = true →
      s.read_msgfds = [] → 2 ≤ max_fds →
      get_msgfds (tcp_chr_recv_msgfds max_fds s [a, b]) 5 = (2, [a, b], s)) := by
  refine ⟨rfl, ?_, rfl, rfl, ?_, ?_, ?_⟩
  · simp [get_msgfds]
  · simp [get_msgfds]
  · intro h
    have h1 : min num s.read_msgfds.length = s.read_msgfds.length := by omega
    simp [get_msgfds, h1]
  · intro max_fds a b hf he hm
    obtain ⟨f, r, wr⟩ := s
    simp only at he hf
    subst he
    obtain ⟨m, rfl⟩ : ∃ m, max_fds = m + 2 := ⟨max_fds - 2, by omega⟩
    simp [get_msgfds, tcp_chr_recv_msgfds, hf, List.take]

theorem get_msgfds_drains_witness :
    qemu_chr_has_feature 2 .QEMU_CHAR_FEATURE_FD_PASS = true ∧
    get_msgfds (tcp_chr_recv_msgfds 16 ⟨2, [], []⟩ [7, 9]) 5 = (2, [7, 9], ⟨2, [], []⟩) ∧
    (get_msgfds ⟨2, [7, 9], []⟩ 5).2.1 = [7, 9] ∧
    (get_msgfds ⟨2, [7, 9], []⟩ 5).2.2.read_msgfds = [] :=
  ⟨by decide,
   (get_msgfds_drains ⟨2, [], []⟩ 5).2.2.2.2.2.2 16 7 9 (by decide) rfl (by decide),
   ((get_msgfds_drains ⟨2, [7, 9], []⟩ 5).2.2.2.2.2.1 (by decide)).1,
   by decide⟩

/-- C4. The telnet constants have the values 255 (IAC), 250 (IAC_SB), 241
(IAC_NOP), 243 (IAC_BREAK), 244 (IAC_IP), 239 (IAC_EOR) and 240 (IAC_SE); each
fits in a byte and no two are equal. -/
theorem iac_constants_values :
    IAC = 255 ∧ IAC_SB = 250 ∧ IAC_NOP = 241 ∧ IAC_BREAK = 243 ∧ IAC_IP = 244 ∧
    IAC_EOR = 239 ∧ IAC_SE = 240 ∧
    iacConstants = [239, 240, 241, 243, 244, 250, 255] ∧
    (∀ b ∈ iacConstants, b < 256) ∧ iacConstants.Nodup := by
  refine ⟨rfl, rfl, rfl, rfl, rfl, rfl, rfl, rfl, by decide, by decide⟩

/-- C5. `QEMUChrEvent` has the five members BREAK, OPENED, MUX_IN, MUX_OUT and
CLOSED and no other; they are pairwise distinct and stand for 0, 1, 2, 3, 4 in
that order, and these are the only integers that stand for an event. -/
theorem qemu_chr_event_five_values :
    QEMUChrEvent.all.length = 5 ∧ QEMUChrEvent.all.Nodup ∧
    (∀ e : QEMUChrEvent, e ∈ QEMUChrEvent.all) ∧
    QEMUChrEvent.all.map QEMUChrEvent.toInt = [0, 1, 2, 3, 4] ∧
    QEMUChrEvent.CHR_EVENT_BREAK.toInt = 0 ∧ QEMUChrEvent.CHR_EVENT_OPENED.toInt = 1 ∧
    QEMUChrEvent.CHR_EVENT_MUX_IN.toInt = 2 ∧ QEMUChrEvent.CHR_EVENT_MUX_OUT.toInt = 3 ∧
    QEMUChrEvent.CHR_EVENT_CLOSED.toInt = 4 ∧
    (∀ e : QEMUChrEvent, QEMUChrEvent.ofInt e.toInt = some e) ∧
    (∀ n : Int, (∃ e, QEMUChrEvent.ofInt n = some e) ↔ 0 ≤ n ∧ n ≤ 4) := by
  refine ⟨rfl, by decide, ?_, rfl, rfl, rfl, rfl, rfl, rfl, ?_, ?_⟩
  · intro e; cases e <;> decide
  · intro e; cases e <;> rfl
  · intro n
    unfold QEMUChrEvent.ofInt
    constructor
    · rintro ⟨e, h⟩
      split_ifs at h <;> omega
    · intro h
      have h5 : n = 0 ∨ n = 1 ∨ n = 2 ∨ n = 3 ∨ n = 4 := by omega
      rcases h5 with h | h | h | h | h <;> simp [h]

/-- C6, the claim as stated fails: "chardev-mux" is a variant type name of the
header and is not one of the twelve variants the specification lists, so the
names of the header are not exactly those twelve. -/
theorem chardev_variant_types_not_spec_twelve :
    TYPE_CHARDEV_MUX ∈ chardevVariantTypes ∧ TYPE_CHARDEV_MUX ∉ specVariantTypes ∧
    TYPE_CHARDEV_MUX = "chardev-mux" ∧
    ¬ (∀ name : String, name ∈ chardevVariantTypes ↔ name ∈ specVariantTypes) := by
  refine ⟨by decide, by decide, rfl, ?_⟩
  intro h
  have h1 : TYPE_CHARDEV_MUX ∈ specVariantTypes := (h TYPE_CHARDEV_MUX).1 (by decide)
  exact absurd h1 (by decide)

/-- C6, amended. The variant type names of the header are thirteen, pairwise
distinct: the twelve the specification lists and "chardev-mux"; the abstract
base "chardev" is not one of them. -/
theorem chardev_variant_types_thirteen :
    (∀ name : String, name ∈ chardevVariantTypes ↔
      (name ∈ specVariantTypes ∨ name = TYPE_CHARDEV_MUX)) ∧
    chardevVariantTypes.length = 13 ∧ chardevVariantTypes.Nodup ∧
    specVariantTypes.length = 12 ∧ specVariantTypes.Nodup ∧
    specVariantTypes =
      ["chardev-null", "chardev-ringbuf", "chardev-pty", "chardev-console", "chardev-stdio",
       "chardev-pipe", "chardev-memory", "chardev-parallel", "chardev-file", "chardev-serial",
       "chardev-socket", "chardev-udp"] ∧
    TYPE_CHARDEV_MUX ∉ specVariantTypes ∧ TYPE_CHARDEV ∉ chardevVariantTypes := by
  refine ⟨?_, rfl, by decide, rfl, by decide, rfl, by decide, by decide⟩
  intro name
  simp only [chardevVariantTypes, specVariantTypes, List.mem_cons, List.mem_singleton,
    List.not_mem_nil, or_false]
  tauto

/-- C7. `ChardevFeature` has the four flags RECONNECTABLE, FD_PASS, REPLAY and
GCONTEXT and no other, pairwise distinct, with bit indices 0, 1, 2, 3; each
index is below `QEMU_CHAR_FEATURE_LAST = 4`, the number of bits of the
`features` bitmap of `Chardev`. -/
theorem chardev_feature_in_bitmap :
    ChardevFeature.all.length = 4 ∧ ChardevFeature.all.Nodup ∧
    (∀ f : ChardevFeature, f ∈ ChardevFeature.all) ∧
    ChardevFeature.all.map ChardevFeature.toNat = [0, 1, 2, 3] ∧
    (∀ f g : ChardevFeature, f.toNat = g.toNat → f = g) ∧
    QEMU_CHAR_FEATURE_LAST = 4 ∧ Chardev.features_nbits = QEMU_CHAR_FEATURE_LAST ∧
    (∀ f : ChardevFeature, f.toNat < QEMU_CHAR_FEATURE_LAST) ∧
    (∀ f : ChardevFeature, f.toNat < Chardev.features_nbits) := by
  refine ⟨rfl, by decide, ?_, rfl, ?_, rfl, rfl, ?_, ?_⟩
  · intro f; cases f <;> decide
  · intro f g; cases f <;> cases g <;> decide
  · intro f; cases f <;> decide
  · intro f; cases f <;> decide

theorem tcp_chr_telnet_init_bounds (greeting : List Nat) :
    (tcp_chr_telnet_init greeting).buflen ≤ TELNET_INIT_BUF_SIZE ∧
    (tcp_chr_telnet_init greeting).buf.length = TELNET_INIT_BUF_SIZE := by
  simp only [tcp_chr_telnet_init, List.length_take, List.length_append, List.length_replicate]
  omega

theorem greeting_step_ok (g : TelnetGreeting) (ev : GreetingEvent) (h : GreetingOk g) :
    GreetingOk (greeting_step g ev) := by
  cases ev with
  | connected greeting =>
    intro init hi
    simp only [greeting_step, Option.some.injEq] at hi
    subst hi
    exact ⟨(tcp_chr_telnet_init_bounds greeting).1, (tcp_chr_telnet_init_bounds greeting).2,
      Nat.zero_le _⟩
  | written n =>
    intro init hi
    cases hg : g.telnet_init with
    | none => simp [greeting_step, hg] at hi
    | some i0 =>
      simp only [greeting_step, hg, Option.some.injEq] at hi
      subst hi
      obtain ⟨h1, h2, _⟩ := h i0 hg
      exact ⟨h1, h2, by simp [greeting_step, hg]⟩
  | disconnected =>
    intro init hi
    simp [greeting_step] at hi

theorem greeting_foldl_ok (events : List GreetingEvent) :
    ∀ g : TelnetGreeting, GreetingOk g → GreetingOk (events.foldl greeting_step g) := by
  induction events with
  | nil => intro g h; exact h
  | cons ev evs ih => intro g h; exact ih _ (greeting_step_ok g ev h)

/-- C8. Whatever greeting is queued and however it is written and released, the
`TCPChardevTelnetInit` a socket device holds has `buflen` at most 21, the size
of its buffer `buf`, which keeps its 21 bytes. -/
theorem telnet_greeting_buflen_le (events : List GreetingEvent) (init : TCPChardevTelnetInit)
    (h : (greeting_run events).telnet_init = some init) :
    init.buflen ≤ 21 ∧ init.buf.length = 21 ∧ TELNET_INIT_BUF_SIZE = 21 ∧
    (greeting_run events).offset ≤ init.buflen := by
  have hok : GreetingOk (greeting_run events) :=
    greeting_foldl_ok events greeting_start (by intro init hi; simp [greeting_start] at hi)
  obtain ⟨h1, h2, h3⟩ := hok init h
  exact ⟨h1, h2, rfl, h3⟩

theorem telnet_greeting_buflen_le_witness :
    (greeting_run [.connected (List.replicate 30 255), .written 40]).telnet_init =
      some (tcp_chr_telnet_init (List.replicate 30 255)) ∧
    (tcp_chr_telnet_init (List.replicate 30 255)).buflen ≤ 21 :=
  ⟨by decide,
   (telnet_greeting_buflen_le [.connected (List.replicate 30 255), .written 40]
     (tcp_chr_telnet_init (List.replicate 30 255)) (by decide)).1⟩

end QemuChar

namespace QemuTraces

/-! ## Theorems on `qemu-traces.c` -/

theorem hist_search_loop_iff (w la : Nat) (e : List Nat) (pc sz : Nat)
    (hs : ∀ i j : Nat, i ≤ j → j < e.length → e.getD i 0 ≤ e.getD j 0)
    (hw : ∀ i : Nat, i < e.length → la + e.getD i 0 < 2 ^ w)
    (hw2 : pc + sz < 2 ^ w) :
    ∀ (k : Nat) (low high : Int), (high + 1 - low).toNat = k → 0 ≤ low →
      high < (e.length : Int) →
      (hist_search_loop w la e pc sz low high = true ↔
        ∃ i : Nat, low ≤ (i : Int) ∧ (i : Int) ≤ high ∧
          pc ≤ la + e.getD i 0 ∧ la + e.getD i 0 < pc + sz) := by
  intro k
  induction k using Nat.strong_induction_on with
  | _ k ih =>
    intro low high hk hlow hhigh
    rw [hist_search_loop]
    by_cases hlh : low ≤ high
    · simp only [hlh, if_true]
      have h2 : (high - low).tdiv 2 = (high - low) / 2 :=
        Int.tdiv_eq_ediv (by omega) (by omega)
      rw [h2]
      obtain ⟨m, hm⟩ : ∃ m : Nat, low + (high - low) / 2 = (m : Int) :=
        ⟨(low + (high - low) / 2).toNat, by omega⟩
      have hm1 : low ≤ (m : Int) := by omega
      have hm2 : (m : Int) ≤ high := by omega
      have hml : m < e.length := by omega
      rw [hm]
      simp only [Int.toNat_ofNat]
      simp only [Nat.mod_eq_of_lt (hw m hml), Nat.mod_eq_of_lt hw2]
      by_cases hin : (la + e.getD m 0 ≥ pc ∧ la + e.getD m 0 < pc + sz)
      · rw [if_pos hin]
        simp only [true_iff]
        exact ⟨m, hm1, hm2, hin.1, hin.2⟩
      · rw [if_neg hin]
        by_cases hlt : pc < la + e.getD m 0
        · rw [if_pos hlt, ih ((m : Int) - 1 + 1 - low).toNat (by omega) low ((m : Int) - 1) rfl
            hlow (by omega)]
          constructor
          · rintro ⟨i, h1, h2, h3, h4⟩
            exact ⟨i, h1, by omega, h3, h4⟩
          · rintro ⟨i, h1, h2, h3, h4⟩
            refine ⟨i, h1, ?_, h3, h4⟩
            by_contra hcon
            have hmi : m ≤ i := by omega
            have := hs m i hmi (by omega)
            omega
        · rw [if_neg hlt, ih (high + 1 - ((m : Int) + 1)).toNat (by omega) ((m : Int) + 1) high rfl
            (by omega) hhigh]
          constructor
          · rintro ⟨i, h1, h2, h3, h4⟩
            exact ⟨i, by omega, h2, h3, h4⟩
          · rintro ⟨i, h1, h2, h3, h4⟩
            refine ⟨i, ?_, h2, h3, h4⟩
            by_contra hcon
            have hmi : i ≤ m := by omega
            have := hs i m hmi hml
            omega
    · simp only [hlh, if_false]
      constructor
      · intro h; cases h
      · rintro ⟨i, h1, h2, _⟩
        omega

theorem sorted_getD_le (e : List Nat) (hs : e.Pairwise (· ≤ ·)) :
    ∀ i j : Nat, i ≤ j → j < e.length → e.getD i 0 ≤ e.getD j 0 := by
  intro i j hij hj
  have hi : i < e.length := by omega
  rw [List.getD_eq_getElem e 0 hi, List.getD_eq_getElem e 0 hj]
  rcases Nat.eq_or_lt_of_le hij with h | h
  · subst h; exact Nat.le_refl _
  · exact List.pairwise_iff_getElem.mp hs i j hi hj h

/-- C9. With full-history mode off, the history map sorted in nondecreasing
order and no wrap-around in `histmap_loadaddr + histmap_entries[i]` or
`tb->pc + tb->size`, the call leaves `pc` and `size` alone and ORs into
`tb->tflags` the bits `TRACE_OP_HIST_CACHE | TRACE_OP_HIST_SET` when some index
`i < nbr_histmap_entries` has
`tb->pc <= histmap_loadaddr + histmap_entries[i] < tb->pc + tb->size`, and the
bit `TRACE_OP_HIST_CACHE` alone when none has (as for an empty map or a block
of size 0). So, the two constants being disjoint and TRACE_OP_HIST_SET clear
before the call, TRACE_OP_HIST_SET is set after it exactly when such an index
exists. -/
theorem tracefile_history_for_tb_search_correct (w : Nat) (c : TraceConsts) (st : TraceState)
    (tb : TranslationBlock)
    (hhist : st.tracefile_history = 0)
    (hsorted : st.histmap_entries.Pairwise (· ≤ ·))
    (hwrap : ∀ i : Nat, (i : Int) < st.nbr_histmap_entries →
      st.histmap_loadaddr + st.histmap_entries.getD i 0 < 2 ^ w)
    (hwrap_tb : tb.pc + tb.size < 2 ^ w) :
    (tracefile_history_for_tb_search w c st tb).pc = tb.pc ∧
    (tracefile_history_for_tb_search w c st tb).size = tb.size ∧
    ((∃ i : Nat, (i : Int) < st.nbr_histmap_entries ∧
        tb.pc ≤ st.histmap_loadaddr + st.histmap_entries.getD i 0 ∧
        st.histmap_loadaddr + st.histmap_entries.getD i 0 < tb.pc + tb.size) →
      (tracefile_history_for_tb_search w c st tb).tflags =
        tb.tflags ||| c.TRACE_OP_HIST_CACHE ||| c.TRACE_OP_HIST_SET) ∧
    ((¬ ∃ i : Nat, (i : Int) < st.nbr_histmap_entries ∧
        tb.pc ≤ st.histmap_loadaddr + st.histmap_entries.getD i 0 ∧
        st.histmap_loadaddr + st.histmap_entries.getD i 0 < tb.pc + tb.size) →
      (tracefile_history_for_tb_search w c st tb).tflags =
        tb.tflags ||| c.TRACE_OP_HIST_CACHE) ∧
    (st.nbr_histmap_entries = 0 ∨ tb.size = 0 →
      (tracefile_history_for_tb_search w c st tb).tflags =
        tb.tflags ||| c.TRACE_OP_HIST_CACHE) ∧
    (c.TRACE_OP_HIST_SET ≠ 0 → c.TRACE_OP_HIST_CACHE &&& c.TRACE_OP_HIST_SET = 0 →
      tb.tflags &&& c.TRACE_OP_HIST_SET = 0 →
      ((tracefile_history_for_tb_search w c st tb).tflags &&& c.TRACE_OP_HIST_SET =
          c.TRACE_OP_HIST_SET ↔
        ∃ i : Nat, (i : Int) < st.nbr_histmap_entries ∧
          tb.pc ≤ st.histmap_loadaddr + st.histmap_entries.getD i 0 ∧
          st.histmap_loadaddr + st.histmap_entries.getD i 0 < tb.pc + tb.size)) := by
  have hnbr : st.nbr_histmap_entries = (st.histmap_entries.length : Int) := rfl
  have hloop := hist_search_loop_iff w st.histmap_loadaddr st.histmap_entries tb.pc tb.size
    (sorted_getD_le st.histmap_entries hsorted)
    (fun i hi => hwrap i (by rw [hnbr]; exact_mod_cast hi)) hwrap_tb
    (st.nbr_histmap_entries - 1 + 1 - 0).toNat 0 (st.nbr_histmap_entries - 1) rfl
    (le_refl 0) (by omega)
  have hpos : (∃ i : Nat, (i : Int) < st.nbr_histmap_entries ∧
        tb.pc ≤ st.histmap_loadaddr + st.histmap_entries.getD i 0 ∧
        st.histmap_loadaddr + st.histmap_entries.getD i 0 < tb.pc + tb.size) →
      (tracefile_history_for_tb_search w c st tb).tflags =
        tb.tflags ||| c.TRACE_OP_HIST_CACHE ||| c.TRACE_OP_HIST_SET := by
    rintro ⟨i, hi, h1, h2⟩
    have hne : st.nbr_histmap_entries ≠ 0 := by omega
    have hl : hist_search_loop w st.histmap_loadaddr st.histmap_entries tb.pc tb.size 0
        (st.nbr_histmap_entries - 1) = true :=
      hloop.2 ⟨i, by omega, by omega, h1, h2⟩
    simp [tracefile_history_for_tb_search, hhist, hne, hl]
  have hneg : (¬ ∃ i : Nat, (i : Int) < st.nbr_histmap_entries ∧
        tb.pc ≤ st.histmap_loadaddr + st.histmap_entries.getD i 0 ∧
        st.histmap_loadaddr + st.histmap_entries.getD i 0 < tb.pc + tb.size) →
      (tracefile_history_for_tb_search w c st tb).tflags =
        tb.tflags ||| c.TRACE_OP_HIST_CACHE := by
    intro hno
    have hl : hist_search_loop w st.histmap_loadaddr st.histmap_entries tb.pc tb.size 0
        (st.nbr_histmap_entries - 1) = false := by
      rw [Bool.eq_false_iff]
      intro ht
      obtain ⟨i, _, hi2, h1, h2⟩ := hloop.1 ht
      exact hno ⟨i, by omega, h1, h2⟩
    by_cases hne : st.nbr_histmap_entries = 0
    · simp [tracefile_history_for_tb_search, hhist, hne]
    · simp [tracefile_history_for_tb_search, hhist, hne, hl]
  refine ⟨?_, ?_, hpos, hneg, ?_, ?_⟩
  · unfold tracefile_history_for_tb_search
    simp only [hhist]
    split_ifs <;> rfl
  · unfold tracefile_history_for_tb_search
    simp only [hhist]
    split_ifs <;> rfl
  · intro h0
    apply hneg
    rintro ⟨i, hi, h1, h2⟩
    rcases h0 with h0 | h0
    · omega
    · omega
  · intro hset hdisj hclear
    constructor
    · intro hbit
      by_contra hno
      rw [hneg hno, Nat.and_distrib_right, hclear, hdisj] at hbit
      exact hset (by simpa using hbit.symm)
    · intro hex
      rw [hpos hex, Nat.and_distrib_right, Nat.and_distrib_right, hclear, hdisj]
      simp

theorem tracefile_history_for_tb_search_correct_witness :
    (tracefile_history_for_tb_search 32 traceConsts
        (trace_start 1 0 0 [0x10, 0x20, 0x30] 0x1000) ⟨0x1020, 4, 0⟩).tflags = 0x300 ∧
    (tracefile_history_for_tb_search 32 traceConsts
        (trace_start 1 0 0 [0x10, 0x20, 0x30] 0x1000) ⟨0x1024, 4, 0⟩).tflags = 0x200 :=
  ⟨(tracefile_history_for_tb_search_correct 32 traceConsts
      (trace_start 1 0 0 [0x10, 0x20, 0x30] 0x1000) ⟨0x1020, 4, 0⟩ rfl (by decide)
      (by
        intro i hi
        have h3 : i < 3 := by simpa [trace_start, TraceState.nbr_histmap_entries] using hi
        interval_cases i <;> simp [trace_start])
      (by decide)).2.2.1 ⟨1, by decide, by decide, by decide⟩,
   (tracefile_history_for_tb_search_correct 32 traceConsts
      (trace_start 1 0 0 [0x10, 0x20, 0x30] 0x1000) ⟨0x1024, 4, 0⟩ rfl (by decide)
      (by
        intro i hi
        have h3 : i < 3 := by simpa [trace_start, TraceState.nbr_histmap_entries] using hi
        interval_cases i <;> simp [trace_start])
      (by decide)).2.2.2.1 (by
        rintro ⟨i, hi, h1, h2⟩
        have h3 : i < 3 := by simpa [trace_start, TraceState.nbr_histmap_entries] using hi
        interval_cases i <;> simp [trace_start] at h1 h2)⟩

theorem trace_flush_ok (fwrite_null : Nat → Bool) (st st1 : TraceState)
    (h : st.trace_entries.length = MAX_TRACE_ENTRIES)
    (hr : trace_flush fwrite_null st = some st1) : TraceOk st1 := by
  unfold trace_flush at hr
  cases hf : st.tracefile with
  | some written =>
    simp only [hf, Option.some.injEq] at hr
    subst hr
    exact ⟨by simp [MAX_TRACE_ENTRIES], h⟩
  | none =>
    simp only [hf] at hr
    split_ifs at hr
    simp only [Option.some.injEq] at hr
    subst hr
    exact ⟨by simp [MAX_TRACE_ENTRIES], h⟩

theorem trace_flush_current (fwrite_null : Nat → Bool) (st st1 : TraceState)
    (hr : trace_flush fwrite_null st = some st1) :
    st1.trace_current = 0 ∧ st1.tracefile_nobuf = st.tracefile_nobuf ∧
    st1.tracefile_enabled = st.tracefile_enabled := by
  unfold trace_flush at hr
  cases hf : st.tracefile with
  | some written =>
    simp only [hf, Option.some.injEq] at hr
    subst hr
    exact ⟨rfl, rfl, rfl⟩
  | none =>
    simp only [hf] at hr
    split_ifs at hr
    simp only [Option.some.injEq] at hr
    subst hr
    exact ⟨rfl, rfl, rfl⟩

theorem trace_flush_open (fwrite_null : Nat → Bool) (st : TraceState)
    (ho : st.tracefile.isSome = true) :
    ∃ st1, trace_flush fwrite_null st = some st1 ∧ st1.tracefile.isSome = true := by
  unfold trace_flush
  cases hf : st.tracefile with
  | some written => exact ⟨_, rfl, rfl⟩
  | none => simp [hf] at ho

theorem trace_push_entry_ok (fwrite_null : Nat → Bool) (st st1 : TraceState) (h : TraceOk st)
    (hr : trace_push_entry fwrite_null st = some st1) : TraceOk st1 := by
  unfold trace_push_entry at hr
  simp only at hr
  split_ifs at hr with hc
  · exact trace_flush_ok fwrite_null _ st1 (by simpa using h.2) hr
  · simp only [Option.some.injEq] at hr
    subst hr
    refine ⟨?_, h.2⟩
    have h1 := h.1
    simp only [not_or] at hc
    have h2 := hc.1
    simp only at h2 ⊢
    omega

theorem trace_special_ok (fwrite_null : Nat → Bool) (c : TraceConsts) (subop data : Nat)
    (st st1 : TraceState) (h : TraceOk st)
    (hr : trace_special fwrite_null c subop data st = some st1) : TraceOk st1 := by
  unfold trace_special at hr
  by_cases hen : st.tracefile_enabled = 0
  · simp only [hen, if_true, Option.some.injEq] at hr
    subst hr
    exact h
  · simp only [hen, if_false] at hr
    by_cases hs : subop = c.TRACE_SPECIAL_LOADADDR
    · simp only [hs, if_true] at hr
      split_ifs at hr with hc
      · exact trace_flush_ok fwrite_null _ st1 (by simpa using h.2) hr
      · simp only [Option.some.injEq] at hr
        subst hr
        refine ⟨?_, by simpa using h.2⟩
        have h1 := h.1
        simp only [not_or] at hc
        have h2 := hc.1
        simp only at h2 ⊢
        omega
    · simp only [hs, if_false] at hr
      split_ifs at hr with hc
      · exact trace_flush_ok fwrite_null _ st1 (by simpa using h.2) hr
      · simp only [Option.some.injEq] at hr
        subst hr
        refine ⟨?_, by simpa using h.2⟩
        have h1 := h.1
        simp only [not_or] at hc
        have h2 := hc.1
        simp only at h2 ⊢
        omega

theorem trace_call_ok (fwrite_null : Nat → Bool) (c : TraceConsts) (st st1 : TraceState)
    (call : TraceCall) (h : TraceOk st) (hr : call.run fwrite_null c st = some st1) :
    TraceOk st1 := by
  cases call with
  | push_entry => exact trace_push_entry_ok fwrite_null st st1 h hr
  | special subop data => exact trace_special_ok fwrite_null c subop data st st1 h hr
  | flush => exact trace_flush_ok fwrite_null st st1 h.2 hr

theorem run_calls_ok (fwrite_null : Nat → Bool) (c : TraceConsts) (calls : List TraceCall) :
    ∀ st st1 : TraceState, TraceOk st → run_calls fwrite_null c st calls = some st1 →
      TraceOk st1 := by
  induction calls with
  | nil =>
    intro st st1 h hr
    simp only [run_calls, Option.some.injEq] at hr
    subst hr
    exact h
  | cons call calls ih =>
    intro st st1 h hr
    rw [run_calls] at hr
    cases hc : call.run fwrite_null c st with
    | none => simp [hc] at hr
    | some st2 =>
      simp only [hc] at hr
      exact ih st2 st1 (trace_call_ok fwrite_null c st st2 call h hc) hr

theorem trace_call_flags (fwrite_null : Nat → Bool) (c : TraceConsts) (st st1 : TraceState)
    (call : TraceCall) (hr : call.run fwrite_null c st = some st1) :
    st1.tracefile_nobuf = st.tracefile_nobuf ∧
    st1.tracefile_enabled = st.tracefile_enabled := by
  cases call with
  | push_entry =>
    simp only [TraceCall.run, trace_push_entry] at hr
    split_ifs at hr
    · have := trace_flush_current fwrite_null _ st1 hr
      exact ⟨this.2.1, this.2.2⟩
    · simp only [Option.some.injEq] at hr
      subst hr
      exact ⟨rfl, rfl⟩
  | special subop data =>
    simp only [TraceCall.run, trace_special] at hr
    split_ifs at hr
    · simp only [Option.some.injEq] at hr
      subst hr
      exact ⟨rfl, rfl⟩
    · have := trace_flush_current fwrite_null _ st1 hr
      exact ⟨this.2.1, this.2.2⟩
    · simp only [Option.some.injEq] at hr
      subst hr
      exact ⟨rfl, rfl⟩
    · have := trace_flush_current fwrite_null _ st1 hr
      exact ⟨this.2.1, this.2.2⟩
    · simp only [Option.some.injEq] at hr
      subst hr
      exact ⟨rfl, rfl⟩
  | flush =>
    have := trace_flush_current fwrite_null st st1 hr
    exact ⟨this.2.1, this.2.2⟩

theorem run_calls_flags (fwrite_null : Nat → Bool) (c : TraceConsts) (calls : List TraceCall) :
    ∀ st st1 : TraceState, run_calls fwrite_null c st calls = some st1 →
      st1.tracefile_nobuf = st.tracefile_nobuf ∧
      st1.tracefile_enabled = st.tracefile_enabled := by
  induction calls with
  | nil =>
    intro st st1 hr
    simp only [run_calls, Option.some.injEq] at hr
    subst hr
    exact ⟨rfl, rfl⟩
  | cons call calls ih =>
    intro st st1 hr
    rw [run_calls] at hr
    cases hc : call.run fwrite_null c st with
    | none => simp [hc] at hr
    | some st2 =>
      simp only [hc] at hr
      have h1 := trace_call_flags fwrite_null c st st2 call hc
      have h2 := ih st2 st1 hr
      exact ⟨h2.1.trans h1.1, h2.2.trans h1.2⟩

theorem trace_call_open (fwrite_null : Nat → Bool) (c : TraceConsts) (st : TraceState)
    (call : TraceCall) (ho : st.tracefile.isSome = true) :
    ∃ st1, call.run fwrite_null c st = some st1 ∧ st1.tracefile.isSome = true := by
  cases call with
  | push_entry =>
    simp only [TraceCall.run, trace_push_entry]
    split_ifs
    · exact trace_flush_open fwrite_null _ ho
    · exact ⟨_, rfl, ho⟩
  | special subop data =>
    simp only [TraceCall.run, trace_special]
    split_ifs
    · exact ⟨_, rfl, ho⟩
    · exact trace_flush_open fwrite_null _ ho
    · exact ⟨_, rfl, ho⟩
    · exact trace_flush_open fwrite_null _ ho
    · exact ⟨_, rfl, ho⟩
  | flush => exact trace_flush_open fwrite_null st ho

theorem run_calls_open (fwrite_null : Nat → Bool) (c : TraceConsts) (calls : List TraceCall) :
    ∀ st : TraceState, st.tracefile.isSome = true →
      ∃ st1, run_calls fwrite_null c st calls = some st1 ∧ st1.tracefile.isSome = true := by
  induction calls with
  | nil => intro st ho; exact ⟨st, rfl, ho⟩
  | cons call calls ih =>
    intro st ho
    obtain ⟨st2, h2, ho2⟩ := trace_call_open fwrite_null c st call ho
    obtain ⟨st1, h1, ho1⟩ := ih st2 ho2
    exact ⟨st1, by rw [run_calls, h2]; exact h1, ho1⟩

theorem trace_push_entry_nobuf (fwrite_null : Nat → Bool) (st st1 : TraceState)
    (h : st.tracefile_nobuf ≠ 0) (hr : trace_push_entry fwrite_null st = some st1) :
    st1.trace_current = 0 := by
  simp only [trace_push_entry, h, ne_eq, not_false_eq_true, or_true, if_true] at hr
  exact (trace_flush_current fwrite_null _ st1 hr).1

theorem trace_special_nobuf (fwrite_null : Nat → Bool) (c : TraceConsts) (subop data : Nat)
    (st st1 : TraceState) (hen : st.tracefile_enabled ≠ 0) (h : st.tracefile_nobuf ≠ 0)
    (hr : trace_special fwrite_null c subop data st = some st1) :
    st1.trace_current = 0 := by
  unfold trace_special at hr
  simp only [hen, if_false] at hr
  by_cases hs : subop = c.TRACE_SPECIAL_LOADADDR
  · simp only [hs, if_true, h, ne_eq, not_false_eq_true, or_true] at hr
    exact (trace_flush_current fwrite_null _ st1 hr).1
  · simp only [hs, if_false, h, ne_eq, not_false_eq_true, or_true, if_true] at hr
    exact (trace_flush_current fwrite_null _ st1 hr).1

/-- C10. From the empty buffer, after every sequence of calls of
`trace_push_entry`, `trace_special` and `trace_flush` that return, whatever the
flags, `trace_current` is at an index of 0 to 1023 = `MAX_TRACE_ENTRIES - 1` of
`trace_entries`, which keeps its 1024 slots; with `tracefile_nobuf` set the
index is 0 after a further `trace_push_entry`, and after a further
`trace_special` when tracing is enabled. With tracing enabled the trace file is
open and every call returns. A call that flushes while `tracefile` is null
(tracing never initialised) need not return; this holds for every behaviour
`fwrite_null` of `fwrite` on a null stream. -/
theorem trace_current_in_bounds (fwrite_null : Nat → Bool) (c : TraceConsts)
    (enabled nobuf history : Int) (histmap_entries : List Nat) (histmap_loadaddr : Nat)
    (calls : List TraceCall) :
    (∀ st : TraceState,
      run_calls fwrite_null c
        (trace_start enabled nobuf history histmap_entries histmap_loadaddr) calls = some st →
      st.trace_current ≤ 1023 ∧ st.trace_current < MAX_TRACE_ENTRIES ∧
      st.trace_entries.length = MAX_TRACE_ENTRIES ∧
      (nobuf ≠ 0 →
        (∀ st1, trace_push_entry fwrite_null st = some st1 → st1.trace_current = 0) ∧
        (∀ subop data st1, enabled ≠ 0 →
          trace_special fwrite_null c subop data st = some st1 → st1.trace_current = 0))) ∧
    MAX_TRACE_ENTRIES = 1024 ∧
    (enabled ≠ 0 →
      ∃ st, run_calls fwrite_null c
          (trace_start enabled nobuf history histmap_entries histmap_loadaddr) calls = some st ∧
        (∃ st1, trace_push_entry fwrite_null st = some st1) ∧
        (∀ subop data, ∃ st1, trace_special fwrite_null c subop data st = some st1)) := by
  have hstart : TraceOk (trace_start enabled nobuf history histmap_entries histmap_loadaddr) :=
    ⟨by show (0 : Nat) < 1024; omega, List.length_replicate _ _⟩
  refine ⟨?_, rfl, ?_⟩
  · intro st hr
    have hok := run_calls_ok fwrite_null c calls _ st hstart hr
    have hfl := run_calls_flags fwrite_null c calls _ st hr
    refine ⟨?_, hok.1, hok.2, ?_⟩
    · have := hok.1
      simp only [MAX_TRACE_ENTRIES] at this
      omega
    · intro hn
      have hn2 : st.tracefile_nobuf ≠ 0 := by rw [hfl.1]; exact hn
      refine ⟨fun st1 h1 => trace_push_entry_nobuf fwrite_null st st1 hn2 h1, ?_⟩
      intro subop data st1 hen h1
      have hen2 : st.tracefile_enabled ≠ 0 := by rw [hfl.2]; exact hen
      exact trace_special_nobuf fwrite_null c subop data st st1 hen2 hn2 h1
  · intro hen
    have ho : (trace_start enabled nobuf history histmap_entries
        histmap_loadaddr).tracefile.isSome = true := by
      simp [trace_start, hen]
    obtain ⟨st, hr, hos⟩ := run_calls_open fwrite_null c calls _ ho
    refine ⟨st, hr, ?_, ?_⟩
    · obtain ⟨st1, h1, _⟩ := trace_call_open fwrite_null c st .push_entry hos
      exact ⟨st1, h1⟩
    · intro subop data
      obtain ⟨st1, h1, _⟩ := trace_call_open fwrite_null c st (.special subop data) hos
      exact ⟨st1, h1⟩

theorem trace_current_in_bounds_witness :
    (1 : Int) ≠ 0 ∧
    (∃ st, run_calls (fun _ => false) traceConsts (trace_start 1 1 0 [] 0)
        [.special 1 0x1000, .push_entry, .flush] = some st ∧
      st.trace_current ≤ 1023 ∧
      ∀ st1, trace_push_entry (fun _ => false) st = some st1 → st1.trace_current = 0) ∧
    run_calls (fun _ => false) traceConsts (trace_start 0 1 0 [] 0) [.push_entry] = none :=
  ⟨by decide,
   (((trace_current_in_bounds (fun _ => false) traceConsts 1 1 0 [] 0
      [.special 1 0x1000, .push_entry, .flush]).2.2 (by decide)).imp fun st h =>
    ⟨h.1,
     ((trace_current_in_bounds (fun _ => false) traceConsts 1 1 0 [] 0
        [.special 1 0x1000, .push_entry, .flush]).1 st h.1).1,
     (((trace_current_in_bounds (fun _ => false) traceConsts 1 1 0 [] 0
        [.special 1 0x1000, .push_entry, .flush]).1 st h.1).2.2.2 (by decide)).1⟩),
   rfl⟩

theorem split_comma_some :
    ∀ (optarg filename tail : List Char), split_comma optarg = some (filename, tail) →
      optarg = filename ++ ',' :: tail ∧ ',' ∉ filename := by
  intro optarg
  induction optarg with
  | nil => intro filename tail h; simp [split_comma] at h
  | cons ch rest ih =>
    intro filename tail h
    rw [split_comma] at h
    by_cases hc : ch = ','
    · simp only [hc, if_true, Option.some.injEq, Prod.mk.injEq] at h
      obtain ⟨h1, h2⟩ := h
      subst h1 h2 hc
      simp
    · simp only [hc, if_false] at h
      cases hs : split_comma rest with
      | none => simp [hs] at h
      | some r =>
        obtain ⟨f, t⟩ := r
        simp only [hs, Option.some.injEq, Prod.mk.injEq] at h
        obtain ⟨h1, h2⟩ := h
        subst h1 h2
        obtain ⟨h3, h4⟩ := ih f t hs
        refine ⟨by simp [h3], ?_⟩
        simp only [List.mem_cons, not_or]
        exact ⟨fun hx => hc hx.symm, h4⟩

theorem loop_values_succ (ent_sz : Nat) (ent_pc : List Nat → Nat) (data : List Nat)
    (n pos : Nat) :
    loop_values ent_sz ent_pc data (n + 1) pos =
      ent_pc ((data.drop pos).take ent_sz) ::
        loop_values ent_sz ent_pc data n (pos + ent_sz) := by
  simp only [loop_values, List.range_succ_eq_map, List.map_cons, List.map_map, Nat.zero_mul,
    Nat.add_zero, List.cons.injEq, true_and]
  apply List.map_congr_left
  intro k _
  simp only [Function.comp_apply]
  rw [show pos + k.succ * ent_sz = pos + ent_sz + k * ent_sz by rw [Nat.succ_mul]; omega]

theorem sorted_snoc (entries : List Nat) (v : Nat) (hs : entries.Pairwise (· ≤ ·))
    (hv : ¬ (entries.length > 0 ∧ v < entries.getD (entries.length - 1) 0)) :
    (entries ++ [v]).Pairwise (· ≤ ·) := by
  rw [List.pairwise_append]
  refine ⟨hs, List.pairwise_singleton _ _, ?_⟩
  intro a ha b hb
  simp only [List.mem_singleton] at hb
  subst hb
  obtain ⟨i, hi, rfl⟩ := List.getElem_of_mem ha
  have h1 := sorted_getD_le entries hs i (entries.length - 1) (by omega) (by omega)
  rw [List.getD_eq_getElem entries 0 hi] at h1
  have h2 : ¬ b < entries.getD (entries.length - 1) 0 := fun h => hv ⟨by omega, h⟩
  omega

theorem read_map_loop_some (ent_sz : Nat) (ent_pc : List Nat → Nat) (data : List Nat) :
    ∀ (n pos : Nat) (entries out : List Nat),
      read_map_loop ent_sz ent_pc data n pos entries = some out →
      out = entries ++ loop_values ent_sz ent_pc data n pos ∧
      (entries.Pairwise (· ≤ ·) → out.Pairwise (· ≤ ·)) := by
  intro n
  induction n with
  | zero =>
    intro pos entries out h
    simp only [read_map_loop, Option.some.injEq] at h
    subst h
    exact ⟨by simp [loop_values], fun hs => hs⟩
  | succ n ih =>
    intro pos entries out h
    rw [read_map_loop] at h
    split_ifs at h with h1 h2
    obtain ⟨h3, h4⟩ := ih _ _ _ h
    refine ⟨?_, fun hs => h4 (sorted_snoc entries _ hs h2)⟩
    rw [h3, loop_values_succ]
    simp

theorem read_map_loop_accepts (ent_sz : Nat) (ent_pc : List Nat → Nat) (data : List Nat) :
    ∀ (n pos : Nat) (entries : List Nat),
      pos + n * ent_sz ≤ data.length →
      (entries ++ loop_values ent_sz ent_pc data n pos).Pairwise (· ≤ ·) →
      read_map_loop ent_sz ent_pc data n pos entries =
        some (entries ++ loop_values ent_sz ent_pc data n pos) := by
  intro n
  induction n with
  | zero => intro pos entries _ _; simp [read_map_loop, loop_values]
  | succ n ih =>
    intro pos entries hlen hs
    rw [loop_values_succ] at hs ⊢
    rw [read_map_loop]
    have hfit : ((data.drop pos).take ent_sz).length = ent_sz := by
      rw [List.length_take, List.length_drop]
      have : pos + ent_sz ≤ data.length := by
        have : ent_sz ≤ (n + 1) * ent_sz := Nat.le_mul_of_pos_left _ (Nat.succ_pos n)
        omega
      omega
    have hlast : ¬ (entries.length > 0 ∧
        ent_pc ((data.drop pos).take ent_sz) < entries.getD (entries.length - 1) 0) := by
      rintro ⟨hpos, hlt⟩
      have hmem : entries.getD (entries.length - 1) 0 ∈ entries := by
        rw [List.getD_eq_getElem entries 0 (by omega)]
        exact List.getElem_mem _
      have := (List.pairwise_append.mp hs).2.2 _ hmem _ (List.mem_cons_self _ _)
      omega
    simp only [hfit, ne_eq, not_true_eq_false, if_false, hlast]
    have hs2 : ((entries ++ [ent_pc ((data.drop pos).take ent_sz)]) ++
        loop_values ent_sz ent_pc data n (pos + ent_sz)).Pairwise (· ≤ ·) := by
      simpa using hs
    have := ih (pos + ent_sz) (entries ++ [ent_pc ((data.drop pos).take ent_sz)])
      (by rw [Nat.succ_mul] at hlen; omega) hs2
    simpa using this

theorem loop_values_eq_map_entry_pc (cfg : MapFormat) (data : List Nat) (n : Nat) :
    loop_values (map_ent_sz cfg)
      (if cfg.sizeof_target_ulong = 4 then ent_pc32 cfg (map_hdr cfg data).big_endian
        else ent_pc64 cfg (map_hdr cfg data).big_endian)
      data n cfg.sizeof_hdr = (List.range n).map (map_entry_pc cfg data) := by
  by_cases h4 : cfg.sizeof_target_ulong = 4
  · simp [h4, loop_values, map_entry_pc, map_ent_sz]
  · simp [h4, loop_values, map_entry_pc, map_ent_sz]

theorem read_map_file_eq (cfg : MapFormat) (files : List Char → Option (List Nat))
    (st : TraceState) (optarg filename tail : List Char) (data : List Nat)
    (hsplit : split_comma optarg = some (filename, tail)) (hfile : files filename = some data)
    (hlen : cfg.sizeof_hdr ≤ data.length) (hhdr : hdr_bad cfg (map_hdr cfg data) = false)
    (hmod : map_payload_length cfg data % map_ent_sz cfg = 0) :
    read_map_file cfg files st optarg =
      if map_nbr cfg data < 0 then none
      else
        (read_map_loop (map_ent_sz cfg)
          (if cfg.sizeof_target_ulong = 4 then ent_pc32 cfg (map_hdr cfg data).big_endian
            else ent_pc64 cfg (map_hdr cfg data).big_endian)
          data (map_nbr cfg data).toNat cfg.sizeof_hdr []).map
          (fun entries => ({ st with histmap_entries := entries }, tail)) := by
  have hlen2 : ¬ data.length < cfg.sizeof_hdr := by omega
  unfold map_hdr at hhdr
  unfold map_payload_length map_ent_sz at hmod
  unfold read_map_file
  simp only [hsplit, hfile, hlen2, if_false, hhdr, Bool.false_eq_true, hmod, ne_eq,
    not_true_eq_false]
  by_cases h4 : cfg.sizeof_target_ulong = 4
  · simp only [h4, if_true, map_ent_sz, map_payload_length, map_hdr, map_nbr]
    split_ifs
    · rfl
    · cases read_map_loop cfg.sizeof_trace_entry32
        (ent_pc32 cfg (cfg.hdr_of_bytes (List.take cfg.sizeof_hdr data)).big_endian) data
        (int_of_off_t
          (((data.length - cfg.sizeof_hdr) / cfg.sizeof_trace_entry32 : Nat) : Int)).toNat
        cfg.sizeof_hdr [] <;> rfl
  · simp only [h4, if_false, map_ent_sz, map_payload_length, map_hdr, map_nbr]
    split_ifs
    · rfl
    · cases read_map_loop cfg.sizeof_trace_entry64
        (ent_pc64 cfg (cfg.hdr_of_bytes (List.take cfg.sizeof_hdr data)).big_endian) data
        (int_of_off_t
          (((data.length - cfg.sizeof_hdr) / cfg.sizeof_trace_entry64 : Nat) : Int)).toNat
        cfg.sizeof_hdr [] <;> rfl

theorem read_map_file_some_inv (cfg : MapFormat) (files : List Char → Option (List Nat))
    (st st1 : TraceState) (optarg tail : List Char)
    (h : read_map_file cfg files st optarg = some (st1, tail)) :
    ∃ filename data, split_comma optarg = some (filename, tail) ∧
      files filename = some data ∧ cfg.sizeof_hdr ≤ data.length ∧
      hdr_bad cfg (map_hdr cfg data) = false ∧
      map_payload_length cfg data % map_ent_sz cfg = 0 := by
  unfold read_map_file at h
  cases hs : split_comma optarg with
  | none => simp [hs] at h
  | some r =>
    obtain ⟨filename, t⟩ := r
    simp only [hs] at h
    cases hf : files filename with
    | none => simp [hf] at h
    | some data =>
      simp only [hf] at h
      by_cases h1 : data.length < cfg.sizeof_hdr
      · simp [h1] at h
      · simp only [h1, if_false] at h
        by_cases h2 : hdr_bad cfg (cfg.hdr_of_bytes (data.take cfg.sizeof_hdr)) = true
        · simp [h2] at h
        · simp only [h2, Bool.false_eq_true, if_false] at h
          by_cases h3 : (data.length - cfg.sizeof_hdr) %
              (if cfg.sizeof_target_ulong = 4 then cfg.sizeof_trace_entry32
                else cfg.sizeof_trace_entry64) ≠ 0
          · rw [if_pos h3] at h
            cases h
          · rw [if_neg h3] at h
            have ht : t = tail := by
              generalize int_of_off_t _ = nbr at h
              revert h
              split
              · intro h; exact Option.noConfusion h
              · split
                · intro h; exact Option.noConfusion h
                · intro h
                  exact (Prod.mk.inj (Option.some.inj h)).2
            subst ht
            refine ⟨filename, data, rfl, hf, by omega, ?_, ?_⟩
            · simpa [map_hdr] using h2
            · simpa [map_payload_length, map_ent_sz] using h3

theorem split_comma_of_eq :
    ∀ (filename tail : List Char), ',' ∉ filename →
      split_comma (filename ++ ',' :: tail) = some (filename, tail) := by
  intro filename
  induction filename with
  | nil => intro tail _; simp [split_comma]
  | cons ch rest ih =>
    intro tail hn
    simp only [List.mem_cons, not_or] at hn
    have hc : ch ≠ ',' := fun hx => hn.1 hx.symm
    simp [split_comma, hc, ih tail hn.2]

theorem map_range_sorted (f : Nat → Nat) (n : Nat)
    (h : ∀ i, i + 1 < n → f i ≤ f (i + 1)) : ((List.range n).map f).Pairwise (· ≤ ·) := by
  have hmono : ∀ b a, a ≤ b → b < n → f a ≤ f b := by
    intro b
    induction b with
    | zero =>
      intro a ha _
      have : a = 0 := by omega
      subst this
      exact Nat.le_refl _
    | succ b ih =>
      intro a ha hb
      rcases Nat.eq_or_lt_of_le ha with h1 | h1
      · subst h1; exact Nat.le_refl _
      · exact Nat.le_trans (ih a (by omega) (by omega)) (h b hb)
  rw [List.pairwise_map]
  refine (List.pairwise_lt_range n).imp_of_mem ?_
  intro a b _ hb hab
  exact hmono b a (Nat.le_of_lt hab) (List.mem_range.mp hb)

theorem map_range_sorted_adjacent (f : Nat → Nat) (n i : Nat)
    (h : ((List.range n).map f).Pairwise (· ≤ ·)) (hi : i + 1 < n) : f i ≤ f (i + 1) := by
  have h1 := sorted_getD_le _ h i (i + 1) (by omega) (by simpa using hi)
  rw [List.getD_eq_getElem _ 0 (by simp; omega), List.getD_eq_getElem _ 0 (by simpa using hi)]
    at h1
  simpa using h1

theorem int_of_off_t_small (n : Nat) (h : n < 2147483648) : int_of_off_t (n : Int) = n := by
  unfold int_of_off_t
  omega

theorem le_bytes_le_value :
    ∀ bs : List Nat, (∀ b ∈ bs, b < 256) → le_bytes bs.length (le_value bs) = bs := by
  intro bs
  induction bs with
  | nil => intro _; rfl
  | cons b bs ih =>
    intro h
    have hb : b < 256 := h b (List.mem_cons_self _ _)
    have hbs : ∀ x ∈ bs, x < 256 := fun x hx => h x (List.mem_cons_of_mem _ hx)
    simp only [List.length_cons, le_value, le_bytes]
    have h1 : (b + 256 * le_value bs) % 256 = b := by omega
    have h2 : (b + 256 * le_value bs) / 256 = le_value bs := by omega
    rw [h1, h2, ih hbs]

theorem bswap32_le_value (bs : List Nat) (hl : bs.length = 4) (h : ∀ b ∈ bs, b < 256) :
    bswap32 (le_value bs) = le_value bs.reverse := by
  unfold bswap32
  rw [← hl, le_bytes_le_value bs h]

theorem bswap64_le_value (bs : List Nat) (hl : bs.length = 8) (h : ∀ b ∈ bs, b < 256) :
    bswap64 (le_value bs) = le_value bs.reverse := by
  unfold bswap64
  rw [← hl, le_bytes_le_value bs h]

theorem swapped_host_value (cfg : MapFormat) (big_endian : Nat) (bs : List Nat)
    (swap : Nat → Nat)
    (hswap : ∀ l : List Nat, l.length = bs.length → (∀ b ∈ l, b < 256) →
      swap (le_value l) = le_value l.reverse)
    (h : ∀ b ∈ bs, b < 256) (hbe : big_endian = 0 ∨ big_endian = 1) :
    (if my_endian cfg ≠ big_endian then swap (host_value cfg bs) else host_value cfg bs) =
      if big_endian = 1 then le_value bs.reverse else le_value bs := by
  have hr : ∀ b ∈ bs.reverse, b < 256 := fun b hb => h b (List.mem_reverse.mp hb)
  have h1 := hswap bs rfl h
  have h2 := hswap bs.reverse (List.length_reverse bs) hr
  rw [List.reverse_reverse] at h2
  unfold my_endian host_value
  cases hw : cfg.WORDS_BIGENDIAN <;> rcases hbe with hb | hb <;> simp [hb, h1, h2]

theorem hdr_bad_big_endian (cfg : MapFormat) (hdr : trace_header)
    (h : hdr_bad cfg hdr = false) : hdr.big_endian = 0 ∨ hdr.big_endian = 1 := by
  unfold hdr_bad at h
  simp only [Bool.or_eq_false_iff, Bool.and_eq_false_iff, bne_eq_false_iff_eq] at h
  exact h.1.1.1.2

theorem map_entry_pc_eq_file (cfg : MapFormat) (data : List Nat) (i : Nat)
    (hlayout : pc_in_entry cfg) (hbytes : ∀ b ∈ data, b < 256)
    (hhdr : hdr_bad cfg (map_hdr cfg data) = false)
    (hfit : cfg.sizeof_hdr + (i + 1) * map_ent_sz cfg ≤ data.length) :
    map_entry_pc cfg data i = file_entry_pc cfg data i := by
  have hbe := hdr_bad_big_endian cfg _ hhdr
  have hsl : ∀ off w : Nat, off + w ≤ map_ent_sz cfg →
      (((data.drop (cfg.sizeof_hdr + i * map_ent_sz cfg)).take (map_ent_sz cfg)).drop
        off).take w = (data.drop (cfg.sizeof_hdr + i * map_ent_sz cfg + off)).take w ∧
      ((data.drop (cfg.sizeof_hdr + i * map_ent_sz cfg + off)).take w).length = w ∧
      ∀ b ∈ (data.drop (cfg.sizeof_hdr + i * map_ent_sz cfg + off)).take w, b < 256 := by
    intro off w hw
    refine ⟨?_, ?_, ?_⟩
    · rw [List.drop_take, List.take_take, List.drop_drop, Nat.min_eq_left (by omega)]
    · rw [List.length_take, List.length_drop]
      rw [Nat.succ_mul] at hfit
      omega
    · intro b hb
      exact hbytes b (List.mem_of_mem_drop (List.mem_of_mem_take hb))
  unfold pc_in_entry at hlayout
  unfold map_entry_pc file_entry_pc
  by_cases h4 : cfg.sizeof_target_ulong = 4
  · simp only [h4, if_true] at hlayout ⊢
    have hsz : map_ent_sz cfg = cfg.sizeof_trace_entry32 := by simp [map_ent_sz, h4]
    obtain ⟨e1, e2, e3⟩ := hsl cfg.offsetof_pc32 4 (by omega)
    unfold ent_pc32
    simp only [e1]
    exact swapped_host_value cfg _ _ bswap32
      (fun l hl hb => bswap32_le_value l (by omega) hb) e3 hbe
  · simp only [h4, if_false] at hlayout ⊢
    have hsz : map_ent_sz cfg = cfg.sizeof_trace_entry64 := by simp [map_ent_sz, h4]
    obtain ⟨e1, e2, e3⟩ := hsl cfg.offsetof_pc64 8 (by omega)
    unfold ent_pc64
    simp only [e1]
    exact swapped_host_value cfg _ _ bswap64
      (fun l hl hb => bswap64_le_value l (by omega) hb) e3 hbe

theorem map_entries_eq_file (cfg : MapFormat) (data : List Nat)
    (hlayout : pc_in_entry cfg) (hbytes : ∀ b ∈ data, b < 256)
    (hlen : cfg.sizeof_hdr ≤ data.length)
    (hhdr : hdr_bad cfg (map_hdr cfg data) = false) :
    map_entries cfg data =
      (List.range (map_payload_length cfg data / map_ent_sz cfg)).map
        (file_entry_pc cfg data) := by
  unfold map_entries
  apply List.map_congr_left
  intro i hi
  have hi2 := List.mem_range.mp hi
  apply map_entry_pc_eq_file cfg data i hlayout hbytes hhdr
  have h1 := Nat.div_mul_le_self (map_payload_length cfg data) (map_ent_sz cfg)
  have h2 : (i + 1) * map_ent_sz cfg ≤
      map_payload_length cfg data / map_ent_sz cfg * map_ent_sz cfg :=
    Nat.mul_le_mul_right _ hi2
  unfold map_payload_length at h1 h2
  omega

theorem sampleMapHuge_facts :
    sampleMapHuge.length = 20 + 4294967296 * 8 ∧ sampleMapHuge.take 20 = sampleHeader 0 := by
  unfold sampleMapHuge
  refine ⟨?_, List.take_left' rfl⟩
  rw [List.length_append, List.length_replicate]
  rfl

theorem read_map_file_wraps (data : List Nat)
    (hlen : data.length = 20 + 4294967296 * 8) (htake : data.take 20 = sampleHeader 0) :
    read_map_file sampleFormat (sampleFiles data) (trace_start 0 0 0 [] 0)
        ['m', 'a', 'p', ',', 'x'] =
      some ({ trace_start 0 0 0 [] 0 with histmap_entries := [] }, ['x']) ∧
    ({ trace_start 0 0 0 [] 0 with histmap_entries := [] } : TraceState).nbr_histmap_entries =
      0 ∧
    hdr_bad sampleFormat (map_hdr sampleFormat data) = false ∧
    map_payload_length sampleFormat data % map_ent_sz sampleFormat = 0 ∧
    map_payload_length sampleFormat data / map_ent_sz sampleFormat = 4294967296 := by
  have hsz : map_ent_sz sampleFormat = 8 := rfl
  have hpay : map_payload_length sampleFormat data = 4294967296 * 8 := by
    unfold map_payload_length
    rw [hlen]
    rfl
  have hhdr : hdr_bad sampleFormat (map_hdr sampleFormat data) = false := by
    unfold map_hdr
    have h20 : sampleFormat.sizeof_hdr = 20 := rfl
    rw [h20, htake]
    decide
  have hmod : map_payload_length sampleFormat data % map_ent_sz sampleFormat = 0 := by
    rw [hpay, hsz]
  have hdiv : map_payload_length sampleFormat data / map_ent_sz sampleFormat =
      4294967296 := by
    rw [hpay, hsz]
  have hnbr : map_nbr sampleFormat data = 0 := by
    unfold map_nbr
    rw [hdiv]
    rfl
  have hfile : sampleFiles data ['m', 'a', 'p'] = some data := by
    simp [sampleFiles]
  refine ⟨?_, rfl, hhdr, hmod, hdiv⟩
  rw [read_map_file_eq sampleFormat (sampleFiles data) (trace_start 0 0 0 [] 0)
    ['m', 'a', 'p', ',', 'x'] ['m', 'a', 'p'] ['x'] data rfl hfile
    (by rw [hlen]; exact Nat.le_add_right _ _) hhdr hmod, hnbr]
  rfl

/-- C11, the claim as stated fails: for the map file of a valid header and
`2 ^ 32` entries, `read_map_file` returns normally, the header is valid and the
payload length is a multiple of the entry size, yet `nbr_histmap_entries` is 0
and `histmap_entries` is empty, while the payload length divided by the entry
size is `2 ^ 32`: the `int` the count is stored in has wrapped. -/
theorem read_map_file_huge_map_wraps :
    read_map_file sampleFormat (sampleFiles sampleMapHuge) (trace_start 0 0 0 [] 0)
        ['m', 'a', 'p', ',', 'x'] =
      some ({ trace_start 0 0 0 [] 0 with histmap_entries := [] }, ['x']) ∧
    ({ trace_start 0 0 0 [] 0 with histmap_entries := [] } : TraceState).nbr_histmap_entries =
      0 ∧
    hdr_bad sampleFormat (map_hdr sampleFormat sampleMapHuge) = false ∧
    map_payload_length sampleFormat sampleMapHuge % map_ent_sz sampleFormat = 0 ∧
    map_payload_length sampleFormat sampleMapHuge / map_ent_sz sampleFormat = 4294967296 :=
  read_map_file_wraps sampleMapHuge sampleMapHuge_facts.1 sampleMapHuge_facts.2

/-- C11, amended. `read_map_file` returns normally only for an option with a
comma, a file that opens, a valid header and a payload length that is a
multiple of the entry size; then nothing of the state but `histmap_entries`
changes, `histmap_entries` is nondecreasing and `nbr_histmap_entries` is the
number of entries converted to `int`. For a file of fewer than `2 ^ 31` entries
`nbr_histmap_entries` is the payload length divided by the entry size and
`histmap_entries` holds, in file order, the pc values of the entries: the bytes
of each `pc` field read in the byte order the header declares, which is the
field as the host reads it, byte-swapped when the endianness of the file is not
that of the host. Such a file with an entry smaller than its predecessor is
rejected, and one with a valid header, a payload of whole entries and no such
entry is accepted. -/
theorem read_map_file_sorted_map (cfg : MapFormat) (files : List Char → Option (List Nat))
    (st : TraceState) (optarg : List Char) :
    (∀ (st1 : TraceState) (tail : List Char),
      read_map_file cfg files st optarg = some (st1, tail) →
      ∃ filename data, optarg = filename ++ ',' :: tail ∧ ',' ∉ filename ∧
        files filename = some data ∧ cfg.sizeof_hdr ≤ data.length ∧
        hdr_bad cfg (map_hdr cfg data) = false ∧
        map_payload_length cfg data % map_ent_sz cfg = 0 ∧
        st1 = { st with histmap_entries := st1.histmap_entries } ∧
        st1.histmap_entries.Pairwise (· ≤ ·) ∧
        st1.nbr_histmap_entries = map_nbr cfg data ∧
        (map_payload_length cfg data / map_ent_sz cfg < 2147483648 →
          st1.nbr_histmap_entries =
            ((map_payload_length cfg data / map_ent_sz cfg : Nat) : Int) ∧
          st1.histmap_entries = map_entries cfg data ∧
          (pc_in_entry cfg → (∀ b ∈ data, b < 256) →
            st1.histmap_entries = file_entries cfg data))) ∧
    (∀ (filename tail : List Char) (data : List Nat) (i : Nat),
      optarg = filename ++ ',' :: tail → ',' ∉ filename → files filename = some data →
      map_payload_length cfg data / map_ent_sz cfg < 2147483648 →
      pc_in_entry cfg → (∀ b ∈ data, b < 256) →
      i + 1 < map_payload_length cfg data / map_ent_sz cfg →
      file_entry_pc cfg data (i + 1) < file_entry_pc cfg data i →
      read_map_file cfg files st optarg = none) ∧
    (∀ (filename tail : List Char) (data : List Nat),
      optarg = filename ++ ',' :: tail → ',' ∉ filename → files filename = some data →
      cfg.sizeof_hdr ≤ data.length → hdr_bad cfg (map_hdr cfg data) = false →
      map_payload_length cfg data % map_ent_sz cfg = 0 →
      map_payload_length cfg data / map_ent_sz cfg < 2147483648 →
      pc_in_entry cfg → (∀ b ∈ data, b < 256) →
      (∀ i, i + 1 < map_payload_length cfg data / map_ent_sz cfg →
        file_entry_pc cfg data i ≤ file_entry_pc cfg data (i + 1)) →
      read_map_file cfg files st optarg =
        some ({ st with histmap_entries := file_entries cfg data }, tail)) := by
  have part1 : ∀ (st1 : TraceState) (tail : List Char),
      read_map_file cfg files st optarg = some (st1, tail) →
      ∃ filename data, split_comma optarg = some (filename, tail) ∧
        files filename = some data ∧ cfg.sizeof_hdr ≤ data.length ∧
        hdr_bad cfg (map_hdr cfg data) = false ∧
        map_payload_length cfg data % map_ent_sz cfg = 0 ∧
        ¬ map_nbr cfg data < 0 ∧
        st1.histmap_entries =
          (List.range (map_nbr cfg data).toNat).map (map_entry_pc cfg data) ∧
        st1.histmap_entries.Pairwise (· ≤ ·) ∧
        st1 = { st with histmap_entries := st1.histmap_entries } := by
    intro st1 tail h
    obtain ⟨filename, data, hsplit, hfile, hlen, hhdr, hmod⟩ :=
      read_map_file_some_inv cfg files st st1 optarg tail h
    rw [read_map_file_eq cfg files st optarg filename tail data hsplit hfile hlen hhdr hmod] at h
    by_cases hneg : map_nbr cfg data < 0
    · rw [if_pos hneg] at h
      exact Option.noConfusion h
    · rw [if_neg hneg] at h
      cases hloop : read_map_loop (map_ent_sz cfg)
          (if cfg.sizeof_target_ulong = 4 then ent_pc32 cfg (map_hdr cfg data).big_endian
            else ent_pc64 cfg (map_hdr cfg data).big_endian)
          data (map_nbr cfg data).toNat cfg.sizeof_hdr [] with
      | none => simp [hloop] at h
      | some entries =>
        simp only [hloop, Option.map_some', Option.some.injEq, Prod.mk.injEq] at h
        obtain ⟨hv, hs⟩ := read_map_loop_some _ _ _ _ _ _ _ hloop
        rw [List.nil_append, loop_values_eq_map_entry_pc] at hv
        have hst : st1.histmap_entries = entries := by rw [← h.1]
        refine ⟨filename, data, hsplit, hfile, hlen, hhdr, hmod, hneg, ?_, ?_, ?_⟩
        · rw [hst, hv]
        · rw [hst]; exact hs List.Pairwise.nil
        · rw [hst, ← h.1]
  refine ⟨?_, ?_, ?_⟩
  · intro st1 tail h
    obtain ⟨filename, data, hsplit, hfile, hlen, hhdr, hmod, hneg, hv, hs, hst⟩ :=
      part1 st1 tail h
    obtain ⟨ho, hn⟩ := split_comma_some optarg filename tail hsplit
    have hcount : st1.nbr_histmap_entries = map_nbr cfg data := by
      rw [TraceState.nbr_histmap_entries, hv]
      simp only [List.length_map, List.length_range]
      omega
    refine ⟨filename, data, ho, hn, hfile, hlen, hhdr, hmod, hst, hs, hcount, ?_⟩
    intro hsmall
    have hnbr : map_nbr cfg data =
        ((map_payload_length cfg data / map_ent_sz cfg : Nat) : Int) :=
      int_of_off_t_small _ hsmall
    have hall : st1.histmap_entries = map_entries cfg data := by
      rw [hv, hnbr]
      rfl
    refine ⟨by rw [hcount, hnbr], hall, ?_⟩
    intro hlayout hbytes
    rw [hall]
    exact map_entries_eq_file cfg data hlayout hbytes hlen hhdr
  · intro filename tail data i ho hn hfile hsmall hlayout hbytes hi hlt
    cases hres : read_map_file cfg files st optarg with
    | none => rfl
    | some r =>
      obtain ⟨st1, tail1⟩ := r
      obtain ⟨filename1, data1, hsplit, hfile1, hlen, hhdr, _, _, hv, hs, _⟩ :=
        part1 st1 tail1 hres
      have hsplit2 := split_comma_of_eq filename tail hn
      rw [← ho, hsplit] at hsplit2
      have hf : filename1 = filename := (Prod.mk.inj (Option.some.inj hsplit2)).1
      subst hf
      rw [hfile] at hfile1
      have hd : data = data1 := Option.some.inj hfile1
      subst hd
      have hnbr : map_nbr cfg data =
          ((map_payload_length cfg data / map_ent_sz cfg : Nat) : Int) :=
        int_of_off_t_small _ hsmall
      rw [hv, hnbr, Int.toNat_ofNat] at hs
      have hs2 : (map_entries cfg data).Pairwise (· ≤ ·) := hs
      rw [map_entries_eq_file cfg data hlayout hbytes hlen hhdr] at hs2
      have := map_range_sorted_adjacent _ _ i hs2 hi
      omega
  · intro filename tail data ho hn hfile hlen hhdr hmod hsmall hlayout hbytes hsorted
    have hsplit : split_comma optarg = some (filename, tail) := by
      rw [ho]; exact split_comma_of_eq filename tail hn
    have hnbr : map_nbr cfg data =
        ((map_payload_length cfg data / map_ent_sz cfg : Nat) : Int) :=
      int_of_off_t_small _ hsmall
    have hfile_eq := map_entries_eq_file cfg data hlayout hbytes hlen hhdr
    rw [read_map_file_eq cfg files st optarg filename tail data hsplit hfile hlen hhdr hmod,
      hnbr,
      if_neg (not_lt.mpr (Int.ofNat_nonneg (map_payload_length cfg data / map_ent_sz cfg))),
      Int.toNat_ofNat]
    have hfit : cfg.sizeof_hdr + map_payload_length cfg data / map_ent_sz cfg * map_ent_sz cfg ≤
        data.length := by
      have := Nat.div_mul_le_self (map_payload_length cfg data) (map_ent_sz cfg)
      unfold map_payload_length at this ⊢
      omega
    have hval : loop_values (map_ent_sz cfg)
        (if cfg.sizeof_target_ulong = 4 then ent_pc32 cfg (map_hdr cfg data).big_endian
          else ent_pc64 cfg (map_hdr cfg data).big_endian)
        data (map_payload_length cfg data / map_ent_sz cfg) cfg.sizeof_hdr =
        (List.range (map_payload_length cfg data / map_ent_sz cfg)).map
          (file_entry_pc cfg data) := by
      rw [loop_values_eq_map_entry_pc]
      exact hfile_eq
    have hacc := read_map_loop_accepts (map_ent_sz cfg)
      (if cfg.sizeof_target_ulong = 4 then ent_pc32 cfg (map_hdr cfg data).big_endian
        else ent_pc64 cfg (map_hdr cfg data).big_endian)
      data (map_payload_length cfg data / map_ent_sz cfg) cfg.sizeof_hdr [] hfit
      (by
        rw [List.nil_append, hval]
        exact map_range_sorted _ _ hsorted)
    rw [hacc, List.nil_append, hval]
    rfl

theorem sample_pc_in_entry : pc_in_entry sampleFormat := by
  unfold pc_in_entry
  decide

theorem read_map_file_sorted_map_witness :
    read_map_file sampleFormat (sampleFiles sampleMapSorted) (trace_start 0 0 0 [] 0)
        ['m', 'a', 'p', ',', 'x'] =
      some ({ trace_start 0 0 0 [] 0 with histmap_entries := [0x10, 0x120] }, ['x']) ∧
    (∃ filename data, ['m', 'a', 'p', ',', 'x'] = filename ++ ',' :: ['x'] ∧ ',' ∉ filename ∧
        sampleFiles sampleMapSorted filename = some data ∧ sampleFormat.sizeof_hdr ≤ data.length ∧
        hdr_bad sampleFormat (map_hdr sampleFormat data) = false ∧
        map_payload_length sampleFormat data % map_ent_sz sampleFormat = 0 ∧
        ({ trace_start 0 0 0 [] 0 with histmap_entries := [0x10, 0x120] } : TraceState) = { trace_start 0 0 0 [] 0 with histmap_entries := ({ trace_start 0 0 0 [] 0 with histmap_entries := [0x10, 0x120] } : TraceState).histmap_entries } ∧
        ({ trace_start 0 0 0 [] 0 with histmap_entries := [0x10, 0x120] } : TraceState).histmap_entries.Pairwise (· ≤ ·) ∧
        ({ trace_start 0 0 0 [] 0 with histmap_entries := [0x10, 0x120] } : TraceState).nbr_histmap_entries = map_nbr sampleFormat data ∧
        (map_payload_length sampleFormat data / map_ent_sz sampleFormat < 2147483648 →
          ({ trace_start 0 0 0 [] 0 with histmap_entries := [0x10, 0x120] } : TraceState).nbr_histmap_entries =
            ((map_payload_length sampleFormat data / map_ent_sz sampleFormat : Nat) : Int) ∧
          ({ trace_start 0 0 0 [] 0 with histmap_entries := [0x10, 0x120] } : TraceState).histmap_entries = map_entries sampleFormat data ∧
          (pc_in_entry sampleFormat → (∀ b ∈ data, b < 256) →
            ({ trace_start 0 0 0 [] 0 with
                histmap_entries := [0x10, 0x120] } : TraceState).histmap_entries =
              file_entries sampleFormat data))) ∧
    read_map_file sampleFormat (sampleFiles sampleMapUnsorted) (trace_start 0 0 0 [] 0)
        ['m', 'a', 'p', ',', 'x'] = none ∧
    read_map_file sampleFormat (sampleFiles sampleMapSorted) (trace_start 0 0 0 [] 0)
        ['m', 'a', 'p', ',', 'x'] =
      some ({ trace_start 0 0 0 [] 0 with
        histmap_entries := file_entries sampleFormat sampleMapSorted }, ['x']) :=
  ⟨rfl,
   (read_map_file_sorted_map sampleFormat (sampleFiles sampleMapSorted) (trace_start 0 0 0 [] 0)
      ['m', 'a', 'p', ',', 'x']).1 _ _ rfl,
   (read_map_file_sorted_map sampleFormat (sampleFiles sampleMapUnsorted)
      (trace_start 0 0 0 [] 0) ['m', 'a', 'p', ',', 'x']).2.1 ['m', 'a', 'p'] ['x']
      sampleMapUnsorted 0 rfl (by decide) rfl (by decide) sample_pc_in_entry (by decide)
      (by decide) (by decide),
   (read_map_file_sorted_map sampleFormat (sampleFiles sampleMapSorted) (trace_start 0 0 0 [] 0)
      ['m', 'a', 'p', ',', 'x']).2.2 ['m', 'a', 'p'] ['x'] sampleMapSorted rfl (by decide) rfl
      (by decide) rfl rfl (by decide) sample_pc_in_entry (by decide) (by
        intro i hi
        have h2 : map_payload_length sampleFormat sampleMapSorted / map_ent_sz sampleFormat = 2 := by
          decide
        rw [h2] at hi
        have h0 : i = 0 := by omega
        subst h0
        decide)⟩

end QemuTraces
